import Mathlib

/-! RadioAT: the `FMTransmitterCLib` shim and the engine contracts behind it.

Part I embeds `Sources/FMTransmitterCLib/shim.cpp` (the functions `fm_transmitter_run` and
`fm_transmitter_is_available`) over an explicit heap of allocations, with a trace of every
observable operation, and proves its contract.

Part II models the engine components the shim includes from `fm_transmitter.cpp` (divisor
modulator, descriptor ring, transmission controller) from their written contracts.

All definitions come first; the theorems follow.
-/

namespace RadioAT

/-! ## Part I. Memory model

The heap is a list of allocations. Allocation never fails in this model, and a freed cell is
never reused. -/

/-- One `char`. -/
abbrev Byte := Fin 256

/-- A C pointer value: `none` is `nullptr`, `some p` points at allocation number `p`. -/
abbrev CPtr := Option Nat

/-- One allocation: a `char[]` or an array of `char*`. -/
inductive Block where
  | chars (bs : List Byte)
  | ptrs (ps : List CPtr)
  deriving DecidableEq, Repr

/-- The heap: cell `p` is `some b` while allocation `p` is live and `none` once freed. -/
structure Heap where
  cells : List (Option Block)
  deriving DecidableEq, Repr

/-- Contents of allocation `p`, if it is live. -/
def Heap.read (h : Heap) (p : Nat) : Option Block :=
  (h.cells[p]?).join

/-- A fresh allocation holding `b`; existing cells are untouched. -/
def Heap.alloc (h : Heap) (b : Block) : Nat × Heap :=
  (h.cells.length, ⟨h.cells ++ [some b]⟩)

/-- Overwrite the contents of allocation `p`. -/
def Heap.store (h : Heap) (p : Nat) (b : Block) : Heap :=
  ⟨h.cells.set p (some b)⟩

/-- Free allocation `p`. -/
def Heap.release (h : Heap) (p : Nat) : Heap :=
  ⟨h.cells.set p none⟩

/-- What can go wrong: the one C++ exception of the shim, and the undefined behaviours. -/
inductive Fault where
  | lengthError    -- `std::length_error` thrown by `std::vector::reserve`
  | outOfBounds    -- read past the end of an array
  | nullDeref      -- `strlen`/`memcpy` handed `nullptr`
  | badPointer     -- dangling pointer, wrong block kind, or no terminator in the block
  | badDelete      -- `delete[]` of something that is not a live `char[]`
  | outOfFuel
  deriving DecidableEq, Repr

/-- Observable operations, recorded most recent first. -/
inductive Event where
  | reserve (n : Nat)
  | readArgv (i : Int)
  | strlen (s : CPtr)
  | newChars (n : Nat) (p : Nat)
  | memcpy (dst src : CPtr) (n : Nat)
  | pushBack (p : CPtr)
  | callMain (argc : Int) (argv : Nat) (h : Heap)
  | deleteArr (p : CPtr)
  deriving DecidableEq, Repr

/-- Machine state inside `fm_transmitter_run`: the heap, the local vector `args`, the trace. -/
structure State where
  heap : Heap
  args : List CPtr
  trace : List Event
  deriving DecidableEq, Repr

/-- A computation step: a value and the next state, or a fault together with the state at
the fault. -/
abbrev Exec (α : Type) := Except (Fault × State) (α × State)

/-- Record one event. -/
def State.log (st : State) (e : Event) : State :=
  { st with trace := e :: st.trace }

/-! ### C library primitives -/

/-- Index of the first NUL byte. -/
def strlenBytes : List Byte → Option Nat
  | [] => none
  | b :: bs => if b = 0 then some 0 else (strlenBytes bs).map (· + 1)

/-- The call `std::strlen(s)`. -/
def strlen (s : CPtr) (st : State) : Exec Nat :=
  let st1 := st.log (.strlen s)
  match s with
  | none => .error (.nullDeref, st1)
  | some p =>
    match st1.heap.read p with
    | some (.chars bs) =>
      match strlenBytes bs with
      | some n => .ok (n, st1)
      | none => .error (.badPointer, st1)
    | _ => .error (.badPointer, st1)

/-- The expression `new char[n]`: a fresh block of `n` chars (indeterminate in C++, zero here). -/
def newChars (n : Nat) (st : State) : Nat × State :=
  let (p, h) := st.heap.alloc (.chars (List.replicate n 0))
  (p, { st with heap := h, trace := .newChars n p :: st.trace })

/-- The call `std::memcpy(dst, src, n)` between two `char` blocks. -/
def memcpy (dst src : CPtr) (n : Nat) (st : State) : Exec Unit :=
  let st1 := st.log (.memcpy dst src n)
  match dst, src with
  | some d, some s =>
    match st1.heap.read d, st1.heap.read s with
    | some (.chars db), some (.chars sb) =>
      if n ≤ db.length ∧ n ≤ sb.length then
        .ok ((), { st1 with heap := st1.heap.store d (.chars (sb.take n ++ db.drop n)) })
      else .error (.outOfBounds, st1)
    | _, _ => .error (.badPointer, st1)
  | _, _ => .error (.nullDeref, st1)

/-- The call `args.push_back(p)`. -/
def pushBack (p : CPtr) (st : State) : State :=
  { st with args := st.args ++ [p], trace := .pushBack p :: st.trace }

/-- The read `argv[i]`, for the caller's array stored at `argv`. -/
def readArgv (argv : Nat) (i : Int) (st : State) : Exec CPtr :=
  let st1 := st.log (.readArgv i)
  match st1.heap.read argv with
  | some (.ptrs arr) =>
    if 0 ≤ i then
      match arr[i.toNat]? with
      | some a => .ok (a, st1)
      | none => .error (.outOfBounds, st1)
    else .error (.outOfBounds, st1)
  | _ => .error (.badPointer, st1)

/-! ### The request made to `std::vector<char*>::reserve` (LP64) -/

/-- Largest `size_t`. -/
def SIZE_MAX : Nat := 2 ^ 64 - 1

/-- Smallest `int`. -/
def INT_MIN : Int := -(2 ^ 31)

/-- Largest `int`. -/
def INT_MAX : Int := 2 ^ 31 - 1

/-- The conversion `static_cast<size_t>(x)` of an `int` x. -/
def toSizeT (x : Int) : Nat := (x % 2 ^ 64).toNat

/-- The largest `max_size()` a `std::vector<char*>` can report on this ABI,
`SIZE_MAX / sizeof(char*)`. Real libraries report this or somewhat less (never less than
`2 ^ 31`), and the proofs only use that the true value lies between `2 ^ 31` and this one. -/
def vectorMaxSize : Nat := SIZE_MAX / 8

/-- The call `args.reserve(n)`: throws `std::length_error` when `n > max_size()`. -/
def reserve (n : Nat) (st : State) : Exec Unit :=
  let st1 := st.log (.reserve n)
  if n > vectorMaxSize then .error (.lengthError, st1) else .ok ((), st1)

/-! ## Part I. The shim (`shim.cpp`) -/

/-- What the engine's `main` hands back: its exit code and the memory as it left it. -/
structure MainResult where
  rc : Int
  heap : Heap

/-- The engine entry point `fm_transmitter_main(argc, argv)`, a returning function of its
arguments and the memory it runs on. -/
abbrev EngineMain := Int → Nat → Heap → MainResult

/-- Body of the copy loop (shim.cpp lines 21-28) for index `i`. -/
def copyArg (argv : Nat) (i : Int) (st : State) : Except (Fault × State) State :=
  match readArgv argv i st with                      -- if (argv[i] == nullptr)
  | .error e => .error e
  | .ok (a, st1) =>
    if a = none then
      .ok (pushBack none st1)                        -- args.push_back(nullptr); continue;
    else
      match readArgv argv i st1 with                 -- size_t n = std::strlen(argv[i]);
      | .error e => .error e
      | .ok (a2, st2) =>
        match strlen a2 st2 with
        | .error e => .error e
        | .ok (n, st3) =>
          match newChars (n + 1) st3 with            -- char* s = new char[n + 1];
          | (s, st4) =>
            match readArgv argv i st4 with           -- std::memcpy(s, argv[i], n + 1);
            | .error e => .error e
            | .ok (a3, st5) =>
              match memcpy (some s) a3 (n + 1) st5 with
              | .error e => .error e
              | .ok (_, st6) => .ok (pushBack (some s) st6)   -- args.push_back(s);

/-- The loop `for (int i = 0; i < argc; i++)`, entered at index `i`. -/
def copyLoop (argc : Int) (argv : Nat) : Nat → Int → State → Except (Fault × State) State
  | 0, _, st => .error (.outOfFuel, st)
  | fuel + 1, i, st =>
    if i < argc then
      match copyArg argv i st with
      | .error e => .error e
      | .ok st1 => copyLoop argc argv fuel (i + 1) st1
    else .ok st

/-- The statement `delete[] s`. -/
def deleteArr (s : CPtr) (st : State) : Except (Fault × State) State :=
  let st1 := st.log (.deleteArr s)
  match s with
  | none => .ok st1
  | some p =>
    match st1.heap.read p with
    | some (.chars _) => .ok { st1 with heap := st1.heap.release p }
    | _ => .error (.badDelete, st1)

/-- The loop `for (char* s : args) delete[] s;` over the elements of the vector. -/
def deleteLoop : List CPtr → State → Except (Fault × State) State
  | [], st => .ok st
  | s :: rest, st =>
    match deleteArr s st with
    | .error e => .error e
    | .ok st1 => deleteLoop rest st1

/-- The `#if FM_TRANSMITTER_AVAILABLE` branch of `fm_transmitter_run` (lines 17-37).
`args.data()` is the vector buffer: one allocation holding the elements of `args`. -/
def runEngine (main : EngineMain) (argc : Int) (argv : Nat) (st0 : State) :
    Except (Fault × State) (Int × State) :=
  match reserve ((toSizeT argc + 1) % 2 ^ 64) st0 with
  | .error e => .error e
  | .ok (_, st1) =>
    match copyLoop argc argv (argc.toNat + 1) 0 st1 with
    | .error e => .error e
    | .ok st2 =>
      let st3 := pushBack none st2
      let buf := (st3.heap.alloc (.ptrs st3.args)).1
      let hc := (st3.heap.alloc (.ptrs st3.args)).2
      let r := main argc buf hc
      let st4 : State := { st3 with heap := r.heap, trace := .callMain argc buf hc :: st3.trace }
      match st4.heap.read buf with
      | some (.ptrs elems) =>
        match deleteLoop elems { st4 with args := elems } with
        | .error e => .error e
        | .ok st5 => .ok (r.rc, { st5 with heap := st5.heap.release buf })
      | _ => .error (.badPointer, st4)

/-- The build configuration: whether `__has_include("fm_transmitter.cpp")` found the
engine, and then its `main`. -/
abbrev Build := Option EngineMain

/-- The macro `FM_TRANSMITTER_AVAILABLE`. -/
def FM_TRANSMITTER_AVAILABLE (b : Build) : Nat :=
  match b with
  | some _ => 1
  | none => 0

/-- The state in which the shim is entered: the caller's heap, nothing done yet. -/
def entry (h : Heap) : State := ⟨h, [], []⟩

/-- The function `int fm_transmitter_run(int argc, const char* argv[])`. -/
def fm_transmitter_run (b : Build) (argc : Int) (argv : Nat) (h : Heap) :
    Except (Fault × State) (Int × State) :=
  match b with
  | some main => runEngine main argc argv (entry h)
  | none => .ok (-1, entry h)

/-- The function `int fm_transmitter_is_available(void)`. -/
def fm_transmitter_is_available (b : Build) : Int :=
  match b with
  | some _ => 1
  | none => 0

/-- The state a run ends in, normally or at a fault. -/
def finalState (r : Except (Fault × State) (Int × State)) : State :=
  match r with
  | .ok (_, st) => st
  | .error (_, st) => st

/-- The state a loop ends in, normally or at a fault. -/
def endState (r : Except (Fault × State) State) : State :=
  match r with
  | .ok st => st
  | .error (_, st) => st

/-- The address of the vector buffer handed to the engine, given the state after the loop. -/
def callBuf (st2 : State) : Nat := st2.heap.cells.length

/-- The heap the engine is started on, given the state after the loop. -/
def callHeap (st2 : State) : Heap :=
  ⟨st2.heap.cells ++ [some (.ptrs (st2.args ++ [none]))]⟩

/-! ## Part I. Vocabulary of the contract -/

/-- Entry `b` of the engine array is a faithful copy of the caller entry `a`: null for
null, otherwise a pointer to a block holding exactly the bytes of the caller string up to and
including its terminator. `h` is the caller heap, `hc` the heap the engine sees. -/
def Copied (h hc : Heap) (a b : CPtr) : Prop :=
  match a with
  | none => b = none
  | some p => ∃ q bs n, b = some q ∧ h.read p = some (.chars bs) ∧ strlenBytes bs = some n ∧
      hc.read q = some (.chars (bs.take (n + 1)))

/-- Precondition of `fm_transmitter_run`: `argv` is a live array `arr` holding at least
`argc` entries, each of the first `argc` null or pointing at a NUL-terminated string. -/
structure ArgvOk (h : Heap) (argv : Nat) (argc : Int) (arr : List CPtr) : Prop where
  live : h.read argv = some (.ptrs arr)
  holds : argc ≤ arr.length
  strings : ∀ (i : Nat) (p : Nat), (i : Int) < argc → arr[i]? = some (some p) →
    ∃ bs n, h.read p = some (.chars bs) ∧ strlenBytes bs = some n

/-- Invariant of the copy loop after `k` iterations, relative to the caller heap `h`. -/
structure LoopInv (h : Heap) (arr : List CPtr) (k : Nat) (st : State) : Prop where
  ext : ∃ e, st.heap.cells = h.cells ++ e
  len : st.args.length = k
  copied : ∀ (j : Nat) (a : CPtr), j < k → arr[j]? = some a →
    ∃ b, st.args[j]? = some b ∧ Copied h st.heap a b
  fresh : ∀ q : Nat, some q ∈ st.args →
    h.cells.length ≤ q ∧ ∃ bs, st.heap.read q = some (.chars bs)
  nodup : ∀ q : Nat, st.args.count (some q) ≤ 1

/-- The events the copy loop with bound `argc` may emit: reads of `argv` at an index in
`[0, argc)`, `strlen` and `memcpy` on non-null pointers, allocations and `push_back`. -/
def LoopEvent (argc : Int) : Event → Prop
  | .readArgv j => 0 ≤ j ∧ j < argc
  | .strlen s => s ≠ none
  | .memcpy d s _ => d ≠ none ∧ s ≠ none
  | .newChars _ _ => True
  | .pushBack _ => True
  | _ => False

/-- The engine is confined to what it is handed: the array at `buf` and the strings its
entries point at. It may rewrite those strings in place, and may reorder the entries of the
array or null them out, but it neither frees the strings, nor duplicates an entry, nor touches
any other block that was live when it was called. -/
structure Confined (main : EngineMain) : Prop where
  frame : ∀ (argc : Int) (buf : Nat) (h : Heap) (args : List CPtr) (p : Nat),
    h.read buf = some (.ptrs args) → p < h.cells.length → p ≠ buf → some p ∉ args →
    (main argc buf h).heap.read p = h.read p
  array : ∀ (argc : Int) (buf : Nat) (h : Heap) (args : List CPtr),
    h.read buf = some (.ptrs args) →
    ∃ elems, (main argc buf h).heap.read buf = some (.ptrs elems) ∧
      ∀ q : Nat, elems.count (some q) ≤ args.count (some q)
  strings : ∀ (argc : Int) (buf : Nat) (h : Heap) (args : List CPtr) (q : Nat) (bs : List Byte),
    h.read buf = some (.ptrs args) → some q ∈ args → h.read q = some (.chars bs) →
    ∃ bs1, (main argc buf h).heap.read q = some (.chars bs1)

/-- The engine stays inside what it is handed, and nothing more is asked of it: it may
rewrite the strings and rewrite or reorder the array in any way, as long as every non-null
entry it leaves in the array is one it was given, and it touches no other block that was live
when it was called. -/
structure Framed (main : EngineMain) : Prop where
  frame : ∀ (argc : Int) (buf : Nat) (h : Heap) (args : List CPtr) (p : Nat),
    h.read buf = some (.ptrs args) → p < h.cells.length → p ≠ buf → some p ∉ args →
    (main argc buf h).heap.read p = h.read p
  entries : ∀ (argc : Int) (buf : Nat) (h : Heap) (args elems : List CPtr) (q : Nat),
    h.read buf = some (.ptrs args) → (main argc buf h).heap.read buf = some (.ptrs elems) →
    some q ∈ elems → some q ∈ args

/-! ## Part I. Sample inputs -/

/-- A caller heap: `argv` at block 0 with entries "hi", null, "" and the closing null. -/
def sampleHeap : Heap :=
  ⟨[some (.ptrs [some 1, none, some 2, none]), some (.chars [104, 105, 0, 7]),
    some (.chars [0])]⟩

/-- The caller array stored in `sampleHeap`. -/
def sampleArgv : List CPtr := [some 1, none, some 2, none]

/-- An engine that reverses its argument array in place and exits with code 3. -/
def reversingMain : EngineMain := fun _ buf h =>
  match h.read buf with
  | some (.ptrs a) => ⟨3, h.store buf (.ptrs a.reverse)⟩
  | _ => ⟨3, h⟩

/-! ## Part II. Engine components, modelled from their written contracts

`shim.cpp` includes the engine (`fm_transmitter.cpp`) when it is present; the engine source is
not among the sources, so the components below follow the design document. -/

/-! ### The divisor modulator -/

/-- Modelled from the spec: `CarrierConfig` of section 3 (the engine source
`fm_transmitter.cpp` is missing). Frequencies are in hertz. -/
structure CarrierConfig where
  center_frequency_hz : Nat
  peak_deviation_hz : Nat
  reference_clock_hz : Nat
  sample_rate_hz : Nat
  deriving DecidableEq, Repr

/-- Modelled from the spec: what section 4.2 does with a sample outside `[-1, 1]`
(the engine source is missing); the document leaves the choice open. -/
inductive OutOfRangePolicy where
  | clamp
  | reject
  deriving DecidableEq, Repr

/-- Modelled from the spec: the fixed-point format of a `Divisor` (section 3: integer part
plus fractional bits) and the out-of-range policy, both configuration (section 9); the engine
source is missing. -/
structure ModulatorPolicy where
  integer_bits : Nat
  fractional_bits : Nat
  out_of_range : OutOfRangePolicy
  deriving DecidableEq, Repr

/-- Modelled from the spec: `instantaneous_frequency_hz = center_frequency_hz + sample *
peak_deviation_hz` (section 3); the engine source is missing. -/
def instantaneous_frequency_hz (cfg : CarrierConfig) (sample : ℚ) : ℚ :=
  cfg.center_frequency_hz + sample * cfg.peak_deviation_hz

/-- Modelled from the spec: the reference clock in units of the divisor's last place, so that
`divisor = scaled_reference / frequency` (section 3); the engine source is missing. -/
def scaled_reference (pol : ModulatorPolicy) (cfg : CarrierConfig) : ℚ :=
  cfg.reference_clock_hz * 2 ^ pol.fractional_bits

/-- Modelled from the spec: rounding to the nearest representable step, not truncation
(section 4.2); the engine source is missing. -/
def round_nearest (x : ℚ) : Nat := ⌊x + 1 / 2⌋₊

/-- Modelled from the spec: clamping a sample into `[-1, 1]` (section 4.2); the engine source
is missing. -/
def clamp_sample (sample : ℚ) : ℚ := max (-1) (min 1 sample)

/-- Modelled from the spec: `sample_to_divisor(sample, config) -> Divisor` of section 4.2,
`divisor = reference_clock_hz / instantaneous_frequency_hz` in fixed point, rounded to nearest;
a sample outside `[-1, 1]` is clamped or rejected as the policy says. The engine source is
missing. -/
def sample_to_divisor (pol : ModulatorPolicy) (sample : ℚ) (cfg : CarrierConfig) : Option Nat :=
  if -1 ≤ sample ∧ sample ≤ 1 then
    some (round_nearest (scaled_reference pol cfg / instantaneous_frequency_hz cfg sample))
  else
    match pol.out_of_range with
    | .clamp =>
      some (round_nearest
        (scaled_reference pol cfg / instantaneous_frequency_hz cfg (clamp_sample sample)))
    | .reject => none

/-- Modelled from the spec: the frequency a divisor stands for, the inverse mapping of
section 8 (`reference_clock_hz / divisor`); the engine source is missing. -/
def implied_frequency (pol : ModulatorPolicy) (cfg : CarrierConfig) (divisor : Nat) : ℚ :=
  scaled_reference pol cfg / divisor

/-- Modelled from the spec: one quantization step at `divisor`, the change of the implied
frequency when the divisor moves by one unit in its last place (taken towards the smaller
divisor, the larger of the two neighbouring gaps); the engine source is missing. -/
def quantization_step (pol : ModulatorPolicy) (cfg : CarrierConfig) (divisor : Nat) : ℚ :=
  implied_frequency pol cfg (divisor - 1) - implied_frequency pol cfg divisor

/-- Modelled from the spec: the hardware's representable range of section 3, a divide ratio
of at least 1 that fits `integer_bits + fractional_bits` bits; the engine source is missing. -/
def representable (pol : ModulatorPolicy) (divisor : Nat) : Prop :=
  2 ^ pol.fractional_bits ≤ divisor ∧ divisor < 2 ^ (pol.integer_bits + pol.fractional_bits)

/-- Modelled from the spec: a `CarrierConfig` that passes validation at construction
(sections 3, 4.2 and 7): a positive carrier with the deviation below it, a positive reference
clock, at least 10 fractional bits, and a representable divisor at both ends of the sample
range. The engine source is missing. -/
structure ValidConfig (pol : ModulatorPolicy) (cfg : CarrierConfig) : Prop where
  deviation_below_center : cfg.peak_deviation_hz < cfg.center_frequency_hz
  reference_pos : 0 < cfg.reference_clock_hz
  precision : 10 ≤ pol.fractional_bits
  low_end : representable pol
    (round_nearest (scaled_reference pol cfg / instantaneous_frequency_hz cfg 1))
  high_end : representable pol
    (round_nearest (scaled_reference pol cfg / instantaneous_frequency_hz cfg (-1)))

/-- A 100 MHz carrier with 75 kHz deviation on a 500 MHz reference (section 8). -/
def sampleConfig : CarrierConfig := ⟨100000000, 75000, 500000000, 48000⟩

/-- Twelve integer and twelve fractional bits, clamping. -/
def samplePolicy : ModulatorPolicy := ⟨12, 12, .clamp⟩

/-! ### The descriptor ring -/

/-- Modelled from the spec: `Descriptor` of section 3, with the link kept as a ring index
(section 9); the engine source is missing. -/
structure Descriptor where
  target_register_address : Nat
  value_to_write : Nat
  link_to_next_descriptor : Nat
  deriving DecidableEq, Repr

/-- Modelled from the spec: the ring of section 4.3 with the `Ring State` of section 3. The
cursors count descriptors written and descriptors the hardware was last seen to have consumed;
slot `n % capacity` holds descriptor number `n`. The engine source is missing. -/
structure Ring where
  capacity : Nat
  target_register_address : Nat
  descriptors : List Descriptor
  write_cursor : Nat
  hardware_read_cursor : Nat
  deriving DecidableEq, Repr

/-- Modelled from the spec: `allocate_ring(capacity) -> Ring` (section 4.3): the descriptors
are allocated once and linked into a loop; the engine source is missing. -/
def allocate_ring (target_register_address capacity : Nat) : Ring :=
  { capacity := capacity
    target_register_address := target_register_address
    descriptors := (List.range capacity).map fun i =>
      ⟨target_register_address, 0, (i + 1) % capacity⟩
    write_cursor := 0
    hardware_read_cursor := 0 }

/-- Modelled from the spec: `write_next(ring, divisor) -> bool` (section 4.3): writes one
descriptor at the write cursor and advances it, or returns false without writing when that
would overwrite an unconsumed slot. The engine source is missing. -/
def write_next (ring : Ring) (divisor : Nat) : Bool × Ring :=
  if ring.write_cursor < ring.hardware_read_cursor + ring.capacity then
    (true,
      { ring with
        descriptors := ring.descriptors.set (ring.write_cursor % ring.capacity)
          ⟨ring.target_register_address, divisor,
            (ring.write_cursor % ring.capacity + 1) % ring.capacity⟩
        write_cursor := ring.write_cursor + 1 })
  else (false, ring)

/-- Modelled from the spec: `observe_hardware_cursor(ring) -> position` (section 4.3);
`hardware_position` is the value the single register read returns. The engine source is
missing. -/
def observe_hardware_cursor (ring : Ring) (hardware_position : Nat) : Nat × Ring :=
  (hardware_position, { ring with hardware_read_cursor := hardware_position })

/-- Modelled from the spec: the consecutive `write_next` calls of section 8, with no
`observe_hardware_cursor` in between: whether all of them returned true, and the ring
afterwards. The engine source is missing. -/
def write_all : Ring → List Nat → Bool × Ring
  | ring, [] => (true, ring)
  | ring, d :: ds =>
    match write_next ring d with
    | (ok, ring1) =>
      match write_all ring1 ds with
      | (oks, ring2) => (ok && oks, ring2)

/-- Modelled from the spec: the `Ring State` invariant of section 3: as many slots as the
capacity, and the write cursor between the hardware cursor and one full ring ahead of it. The
engine source is missing. -/
structure Ring.WellFormed (ring : Ring) : Prop where
  slots : ring.descriptors.length = ring.capacity
  not_behind : ring.hardware_read_cursor ≤ ring.write_cursor
  not_past : ring.write_cursor ≤ ring.hardware_read_cursor + ring.capacity

/-! ### The transmission controller -/

/-- Modelled from the spec: the states of section 4.4; the engine source is missing. -/
inductive ControllerState where
  | Idle
  | Priming
  | Streaming
  | Draining
  | Faulted
  deriving DecidableEq, Repr

/-- Modelled from the spec: the shutdown policy of section 4.4 (`Draining`); the engine source
is missing. -/
inductive ShutdownPolicy where
  | drain_naturally
  | abandon_immediately
  deriving DecidableEq, Repr

/-- Modelled from the spec: the control registers of section 4.1 that the controller starts
and stops, with the values that enable them and their documented idle values; the numbers
themselves are per hardware revision. The engine source is missing. -/
structure RegisterLayout where
  clock_control_register : Nat
  dma_control_register : Nat
  clock_enable_value : Nat
  dma_enable_value : Nat
  clock_idle_value : Nat
  dma_idle_value : Nat
  deriving DecidableEq, Repr

/-- Modelled from the spec: the mock register interface of section 8, capturing every write as
`(address, value)`, most recent first; the engine source is missing. -/
structure MockRegisters where
  writes : List (Nat × Nat)
  deriving DecidableEq, Repr

/-- Modelled from the spec: `write_register(address, value)` (section 4.1) on the mock; the
engine source is missing. -/
def write_register (regs : MockRegisters) (address value : Nat) : MockRegisters :=
  ⟨(address, value) :: regs.writes⟩

/-- Modelled from the spec: the final value the mock captured for `address` (section 8), if
the register was written at all; the engine source is missing. -/
def final_value (regs : MockRegisters) (address : Nat) : Option Nat :=
  (regs.writes.find? fun w => w.1 = address).map fun w => w.2

/-- Modelled from the spec: a transmission session (sections 3 and 4.4); the engine source is
missing. -/
structure Session where
  state : ControllerState
  ring : Ring
  registers : MockRegisters
  layout : RegisterLayout
  shutdown_policy : ShutdownPolicy
  deriving DecidableEq, Repr

/-- Modelled from the spec: what the controller reacts to (sections 4.4 and 5): commands,
the outcome of priming, one poll of the hardware cursor, and the underrun rate passing its
threshold. The engine source is missing. -/
inductive ControllerEvent where
  | start_command
  | ring_filled
  | priming_deadline
  | stop_request
  | hardware_poll (hardware_position : Nat)
  | underrun_rate_exceeded
  deriving DecidableEq, Repr

/-- Modelled from the spec: hardware registers restored to their idle values (sections 3, 4.4
and 7), DMA first and then the clock generator; the engine source is missing. -/
def restore_idle (s : Session) : Session :=
  { s with
    registers := write_register
      (write_register s.registers s.layout.dma_control_register s.layout.dma_idle_value)
      s.layout.clock_control_register s.layout.clock_idle_value }

/-- Modelled from the spec: the hardware loop enabled at the end of priming (section 4.4);
the engine source is missing. -/
def enable_hardware (s : Session) : Session :=
  { s with
    registers := write_register
      (write_register s.registers s.layout.clock_control_register s.layout.clock_enable_value)
      s.layout.dma_control_register s.layout.dma_enable_value }

/-- Modelled from the spec: the state machine of section 4.4,
`Idle → Priming → Streaming → Draining → Idle` plus the terminal `Faulted`; the engine source
is missing. -/
def controller_step (s : Session) (ev : ControllerEvent) : Session :=
  match s.state, ev with
  | .Idle, .start_command => { s with state := .Priming }
  | .Priming, .ring_filled => { enable_hardware s with state := .Streaming }
  | .Priming, .priming_deadline => { restore_idle s with state := .Faulted }
  | .Streaming, .hardware_poll p =>
    { s with ring := (observe_hardware_cursor s.ring p).2 }
  | .Streaming, .underrun_rate_exceeded => { restore_idle s with state := .Faulted }
  | .Streaming, .stop_request => { s with state := .Draining }
  | .Draining, .hardware_poll p =>
    let ring := (observe_hardware_cursor s.ring p).2
    if s.shutdown_policy = .abandon_immediately ∨ ring.write_cursor ≤ ring.hardware_read_cursor
    then { restore_idle { s with ring := ring } with state := .Idle }
    else { s with ring := ring }
  | _, _ => s

/-- Modelled from the spec: the controller of section 4.4 reacting to a sequence of events,
one after the other; the engine source is missing. -/
def controller_run (s : Session) (evs : List ControllerEvent) : Session :=
  evs.foldl controller_step s

/-- Modelled from the spec: a register layout whose two control registers are distinct
(section 4.1); the engine source is missing. -/
def RegisterLayout.WellFormed (l : RegisterLayout) : Prop :=
  l.clock_control_register ≠ l.dma_control_register

/-- A three-slot ring that is full, inside a streaming session whose control registers were
last written with their enabling values. -/
def sampleSession : Session :=
  { state := .Streaming
    ring := (write_all (allocate_ring 28784 3) [20480, 20465, 20495]).2
    registers := ⟨[(1, 7), (0, 5)]⟩
    layout := ⟨0, 1, 5, 7, 0, 0⟩
    shutdown_policy := .drain_naturally }

/-! ## Part I. Heap lemmas -/

theorem Heap.read_lt {h : Heap} {p : Nat} {b : Block} (hr : h.read p = some b) :
    p < h.cells.length := by
  unfold Heap.read at hr
  by_contra hlt
  rw [List.getElem?_eq_none (Nat.le_of_not_lt hlt)] at hr
  simp at hr

theorem Heap.read_append_left (cs ext : List (Option Block)) {p : Nat} (hp : p < cs.length) :
    (Heap.mk (cs ++ ext)).read p = (Heap.mk cs).read p := by
  simp [Heap.read, List.getElem?_append_left hp]

theorem Heap.read_append_new (cs : List (Option Block)) (b : Block) :
    (Heap.mk (cs ++ [some b])).read cs.length = some b := by
  simp [Heap.read]

theorem Heap.read_store_same {h : Heap} {p : Nat} (b : Block) (hp : p < h.cells.length) :
    (h.store p b).read p = some b := by
  simp [Heap.read, Heap.store, List.getElem?_set, hp]

theorem Heap.read_store_other {h : Heap} {p q : Nat} (b : Block) (hne : q ≠ p) :
    (h.store q b).read p = h.read p := by
  simp [Heap.read, Heap.store, List.getElem?_set, hne]

theorem Heap.read_release_other {h : Heap} {p q : Nat} (hne : q ≠ p) :
    (h.release q).read p = h.read p := by
  simp [Heap.read, Heap.release, List.getElem?_set, hne]

/-! ## Part I. One iteration of the copy loop -/

theorem strlenBytes_lt : ∀ {bs : List Byte} {n : Nat}, strlenBytes bs = some n → n < bs.length
  | [], n, h => by simp [strlenBytes] at h
  | b :: bs, n, h => by
    unfold strlenBytes at h
    split at h
    · simp at h; subst h; simp
    · cases hs : strlenBytes bs with
      | none => simp [hs] at h
      | some m =>
        simp [hs] at h
        subst h
        have := strlenBytes_lt hs
        simp; omega

theorem readArgv_ok {argv : Nat} {i : Int} {st : State} {arr : List CPtr} {a : CPtr}
    (hr : st.heap.read argv = some (.ptrs arr)) (hi : 0 ≤ i) (ha : arr[i.toNat]? = some a) :
    readArgv argv i st = .ok (a, st.log (.readArgv i)) := by
  simp [readArgv, State.log, hr, hi, ha]

theorem copyArg_null {argv : Nat} {i : Int} {st : State} {arr : List CPtr}
    (hr : st.heap.read argv = some (.ptrs arr)) (hi : 0 ≤ i) (ha : arr[i.toNat]? = some none) :
    copyArg argv i st = .ok (pushBack none (st.log (.readArgv i))) := by
  simp [copyArg, readArgv_ok hr hi ha]

theorem copyArg_string {argv : Nat} {i : Int} {st : State} {arr : List CPtr} {p : Nat}
    {bs : List Byte} {n : Nat}
    (hr : st.heap.read argv = some (.ptrs arr)) (hi : 0 ≤ i) (ha : arr[i.toNat]? = some (some p))
    (hp : st.heap.read p = some (.chars bs)) (hn : strlenBytes bs = some n) :
    copyArg argv i st = .ok
      { heap := ⟨st.heap.cells ++ [some (.chars (bs.take (n + 1)))]⟩
        args := st.args ++ [some st.heap.cells.length]
        trace := .pushBack (some st.heap.cells.length)
          :: .memcpy (some st.heap.cells.length) (some p) (n + 1)
          :: .readArgv i :: .newChars (n + 1) st.heap.cells.length
          :: .strlen (some p) :: .readArgv i :: .readArgv i :: st.trace } := by
  have hle : n + 1 ≤ bs.length := strlenBytes_lt hn
  have hargv := Heap.read_lt hr
  have hplt := Heap.read_lt hp
  have h1 : readArgv argv i st = .ok (some p, st.log (.readArgv i)) := readArgv_ok hr hi ha
  have h2 : readArgv argv i (st.log (.readArgv i))
      = .ok (some p, (st.log (.readArgv i)).log (.readArgv i)) := readArgv_ok hr hi ha
  simp only [copyArg, h1, h2]
  simp [strlen, State.log, hp, hn, newChars, Heap.alloc, readArgv, memcpy,
    Heap.read_append_left _ _ hargv, Heap.read_append_left _ _ hplt, hr, hi, ha, pushBack,
    Heap.read_append_new, Heap.store, hle]

/-! ## Part I. The copy loop: invariant -/

theorem Heap.read_of_ext {h h1 : Heap} {e : List (Option Block)} (he : h1.cells = h.cells ++ e)
    {p : Nat} {b : Block} (hr : h.read p = some b) : h1.read p = some b := by
  have hp := Heap.read_lt hr
  have : h1 = Heap.mk (h.cells ++ e) := by cases h1; simp_all
  rw [this, Heap.read_append_left _ _ hp]
  exact hr

theorem Copied.mono {h : Heap} (hc hc1 : Heap) {a b : CPtr} {e : List (Option Block)}
    (he : hc1.cells = hc.cells ++ e) (hcp : Copied h hc a b) : Copied h hc1 a b := by
  cases a with
  | none => exact hcp
  | some p =>
    obtain ⟨q, bs, n, hb, hp, hn, hq⟩ := hcp
    exact ⟨q, bs, n, hb, hp, hn, Heap.read_of_ext he hq⟩

theorem LoopInv.start (h : Heap) (arr : List CPtr) (tr : List Event) :
    LoopInv h arr 0 ⟨h, [], tr⟩ where
  ext := ⟨[], by simp⟩
  len := rfl
  copied := by intro j a hj; omega
  fresh := by intro q hq; simp at hq
  nodup := by intro q; simp

theorem copyArg_inv {h : Heap} {argv : Nat} {argc : Int} {arr : List CPtr} {k : Nat}
    {st : State} (ok : ArgvOk h argv argc arr) (inv : LoopInv h arr k st)
    (hk : (k : Int) < argc) :
    ∃ st1, copyArg argv k st = .ok st1 ∧ LoopInv h arr (k + 1) st1 := by
  obtain ⟨e, he⟩ := inv.ext
  have hklt : k < arr.length := by have := ok.holds; omega
  have hr := Heap.read_of_ext he ok.live
  have hak : arr[((k : Int)).toNat]? = some arr[k] := by simp [List.getElem?_eq_getElem hklt]
  cases ha : arr[k] with
  | none =>
    rw [ha] at hak
    refine ⟨_, copyArg_null hr (by omega) hak, ?_⟩
    refine ⟨⟨e, he⟩, by simp [pushBack, State.log, inv.len], ?_, ?_, ?_⟩
    · intro j a hj haj
      rcases Nat.lt_succ_iff_lt_or_eq.mp hj with hlt | heq
      · obtain ⟨b, hb, hc⟩ := inv.copied j a hlt haj
        refine ⟨b, ?_, hc⟩
        simp only [pushBack, State.log]
        rw [List.getElem?_append_left (by rw [inv.len]; exact hlt)]
        exact hb
      · subst heq
        rw [List.getElem?_eq_getElem hklt, ha] at haj
        cases haj
        refine ⟨none, ?_, rfl⟩
        simp [pushBack, State.log, ← inv.len]
    · intro q hq
      have : some q ∈ st.args := by simpa [pushBack, State.log] using hq
      exact inv.fresh q this
    · intro q
      have := inv.nodup q
      simpa [pushBack, State.log, List.count_append] using this
  | some p =>
    rw [ha] at hak
    obtain ⟨bs, n, hp, hn⟩ := ok.strings k p hk (by rw [List.getElem?_eq_getElem hklt, ha])
    have hp1 := Heap.read_of_ext he hp
    refine ⟨_, copyArg_string hr (by omega) hak hp1 hn, ?_⟩
    have hext : ∀ {q : Nat} {b : Block}, st.heap.read q = some b →
        (Heap.mk (st.heap.cells ++ [some (.chars (bs.take (n + 1)))])).read q = some b :=
      fun hq => Heap.read_of_ext (h := st.heap) rfl hq
    refine ⟨⟨e ++ [some (.chars (bs.take (n + 1)))], by simp [he]⟩, by simp [inv.len], ?_, ?_, ?_⟩
    · intro j a hj haj
      rcases Nat.lt_succ_iff_lt_or_eq.mp hj with hlt | heq
      · obtain ⟨b, hb, hc⟩ := inv.copied j a hlt haj
        refine ⟨b, ?_, Copied.mono st.heap _ rfl hc⟩
        show (st.args ++ [some st.heap.cells.length])[j]? = some b
        rw [List.getElem?_append_left (by rw [inv.len]; exact hlt)]
        exact hb
      · subst heq
        rw [List.getElem?_eq_getElem hklt, ha] at haj
        cases haj
        refine ⟨some st.heap.cells.length, ?_, ?_⟩
        · simp [← inv.len]
        · exact ⟨_, bs, n, rfl, hp, hn, Heap.read_append_new _ _⟩
    · intro q hq
      have hq1 : some q ∈ st.args ∨ q = st.heap.cells.length := by
        simpa using hq
      rcases hq1 with hold | hnew
      · obtain ⟨hge, bq, hbq⟩ := inv.fresh q hold
        exact ⟨hge, bq, hext hbq⟩
      · subst hnew
        refine ⟨by rw [he]; simp, _, Heap.read_append_new _ _⟩
    · intro q
      show (st.args ++ [some st.heap.cells.length]).count (some q) ≤ 1
      rw [List.count_append]
      by_cases hq : q = st.heap.cells.length
      · subst hq
        have hnot : some st.heap.cells.length ∉ st.args := by
          intro hmem
          obtain ⟨_, bq, hbq⟩ := inv.fresh _ hmem
          exact absurd (Heap.read_lt hbq) (lt_irrefl _)
        rw [List.count_eq_zero_of_not_mem hnot]
        simp
      · have := inv.nodup q
        have hz : [some st.heap.cells.length].count (some q) = 0 := by
          rw [List.count_eq_zero]
          simp
          exact hq
        omega

theorem copyLoop_inv {h : Heap} {argv : Nat} {argc : Int} {arr : List CPtr}
    (ok : ArgvOk h argv argc arr) :
    ∀ (fuel k : Nat) (st : State), LoopInv h arr k st → k ≤ argc.toNat →
      argc.toNat - k < fuel →
      ∃ st1, copyLoop argc argv fuel k st = .ok st1 ∧ LoopInv h arr argc.toNat st1
  | 0, k, st, _, _, hf => by omega
  | fuel + 1, k, st, inv, hk, hf => by
    unfold copyLoop
    by_cases hlt : (k : Int) < argc
    · obtain ⟨st1, h1, inv1⟩ := copyArg_inv ok inv hlt
      have ih := copyLoop_inv ok fuel (k + 1) st1 inv1 (by omega) (by omega)
      simp only [hlt, if_true, h1]
      simpa using ih
    · have : k = argc.toNat := by omega
      subst this
      exact ⟨st, by simp [hlt], inv⟩

/-! ## Part I. What the loops add to the trace -/

theorem copyArg_trace (argc : Int) (argv : Nat) (i : Int) (st : State) (h0 : 0 ≤ i)
    (hi : i < argc) :
    ∃ pre, (endState (copyArg argv i st)).trace = pre ++ st.trace ∧
      ∀ e ∈ pre, LoopEvent argc e := by
  have rd : LoopEvent argc (.readArgv i) := ⟨h0, hi⟩
  cases hr : st.heap.read argv with
  | none => exact ⟨[.readArgv i], by simp [copyArg, readArgv, State.log, hr, endState], by simpa⟩
  | some blk =>
    cases blk with
    | chars bs =>
      exact ⟨[.readArgv i], by simp [copyArg, readArgv, State.log, hr, endState], by simpa⟩
    | ptrs arr =>
      cases ha : arr[i.toNat]? with
      | none =>
        exact ⟨[.readArgv i], by simp [copyArg, readArgv, State.log, hr, endState, ha, h0],
          by simpa⟩
      | some a =>
        cases a with
        | none =>
          rw [copyArg_null hr h0 ha]
          exact ⟨[.pushBack none, .readArgv i], by simp [endState, pushBack, State.log],
            by simp [LoopEvent, h0, hi]⟩
        | some p =>
          have h1 : readArgv argv i st = .ok (some p, st.log (.readArgv i)) :=
            readArgv_ok hr h0 ha
          have h2 : readArgv argv i (st.log (.readArgv i))
              = .ok (some p, (st.log (.readArgv i)).log (.readArgv i)) := readArgv_ok hr h0 ha
          have bad : ∀ hp : (∀ bs n, st.heap.read p = some (.chars bs) → strlenBytes bs ≠ some n),
              (endState (copyArg argv i st)).trace
                = [.strlen (some p), .readArgv i, .readArgv i] ++ st.trace := by
            intro hp
            simp only [copyArg, h1, h2]
            cases hq : st.heap.read p with
            | none => simp [strlen, State.log, hq, endState]
            | some blk =>
              cases blk with
              | ptrs ps => simp [strlen, State.log, hq, endState]
              | chars bs =>
                cases hn : strlenBytes bs with
                | none => simp [strlen, State.log, hq, endState, hn]
                | some n => exact absurd hn (hp bs n hq)
          by_cases hp : ∃ bs n, st.heap.read p = some (.chars bs) ∧ strlenBytes bs = some n
          · obtain ⟨bs, n, hp, hn⟩ := hp
            rw [copyArg_string hr h0 ha hp hn]
            exact ⟨[.pushBack (some st.heap.cells.length),
              .memcpy (some st.heap.cells.length) (some p) (n + 1), .readArgv i,
              .newChars (n + 1) st.heap.cells.length, .strlen (some p), .readArgv i,
              .readArgv i], by simp [endState], by simp [LoopEvent, h0, hi]⟩
          · refine ⟨_, bad (fun bs n hb hn => hp ⟨bs, n, hb, hn⟩), ?_⟩
            simp [LoopEvent, h0, hi]

theorem copyLoop_trace (argc : Int) (argv : Nat) :
    ∀ (fuel : Nat) (i : Int) (st : State), 0 ≤ i →
      ∃ pre, (endState (copyLoop argc argv fuel i st)).trace = pre ++ st.trace ∧
        ∀ e ∈ pre, LoopEvent argc e
  | 0, i, st, _ => ⟨[], by simp [copyLoop, endState], by simp⟩
  | fuel + 1, i, st, h0 => by
    unfold copyLoop
    by_cases hlt : i < argc
    · obtain ⟨pre, hpre, hev⟩ := copyArg_trace argc argv i st h0 hlt
      simp only [hlt, if_true]
      cases hc : copyArg argv i st with
      | error e =>
        rw [hc] at hpre
        exact ⟨pre, by simpa [endState] using hpre, hev⟩
      | ok st1 =>
        rw [hc] at hpre
        obtain ⟨pre1, hpre1, hev1⟩ := copyLoop_trace argc argv fuel (i + 1) st1 (by omega)
        refine ⟨pre1 ++ pre, ?_, ?_⟩
        · simp only [hpre1]
          simp only [endState] at hpre
          rw [hpre, List.append_assoc]
        · intro e he
          rcases List.mem_append.mp he with h1 | h1
          · exact hev1 e h1
          · exact hev e h1
    · exact ⟨[], by simp [hlt, endState], by simp⟩

theorem deleteLoop_trace :
    ∀ (l : List CPtr) (st : State),
      ∃ pre, (endState (deleteLoop l st)).trace = pre ++ st.trace ∧
        ∀ e ∈ pre, ∃ s, e = .deleteArr s
  | [], st => ⟨[], by simp [deleteLoop, endState], by simp⟩
  | s :: rest, st => by
    unfold deleteLoop
    cases hd : deleteArr s st with
    | error e =>
      refine ⟨[.deleteArr s], ?_, by simp⟩
      unfold deleteArr at hd
      cases s with
      | none => simp at hd
      | some p =>
        simp only [State.log] at hd
        split at hd
        · simp at hd
        · cases hd
          simp [endState]
    | ok st1 =>
      have ht : st1.trace = .deleteArr s :: st.trace := by
        unfold deleteArr at hd
        cases s with
        | none => simp [State.log] at hd; subst hd; rfl
        | some p =>
          simp only [State.log] at hd
          split at hd
          · cases hd; rfl
          · simp at hd
      obtain ⟨pre1, hpre1, hev1⟩ := deleteLoop_trace rest st1
      refine ⟨pre1 ++ [.deleteArr s], ?_, ?_⟩
      · simp only [hpre1, ht]
        simp
      · intro e he
        rcases List.mem_append.mp he with h1 | h1
        · exact hev1 e h1
        · exact ⟨s, by simpa using h1⟩

/-! ## Part I. The engine call and the clean-up loop -/

theorem Heap.read_ext_eq (h h1 : Heap) {e : List (Option Block)} (he : h1.cells = h.cells ++ e)
    {p : Nat} (hp : p < h.cells.length) : h1.read p = h.read p := by
  have : h1 = Heap.mk (h.cells ++ e) := by cases h1; simp_all
  rw [this, Heap.read_append_left _ _ hp]

theorem deleteLoop_ok :
    ∀ (l : List CPtr) (st : State), (∀ q : Nat, l.count (some q) ≤ 1) →
      (∀ q : Nat, some q ∈ l → ∃ bs, st.heap.read q = some (.chars bs)) →
      ∃ st1, deleteLoop l st = .ok st1 ∧
        ∀ p : Nat, some p ∉ l → st1.heap.read p = st.heap.read p
  | [], st, _, _ => ⟨st, rfl, fun _ _ => rfl⟩
  | none :: rest, st, hc, hl => by
    have hc1 : ∀ q : Nat, rest.count (some q) ≤ 1 := by
      intro q
      have := hc q
      simpa [List.count_cons] using this
    obtain ⟨st1, h1, hfr⟩ := deleteLoop_ok rest (st.log (.deleteArr none)) hc1
      (fun q hq => hl q (List.mem_cons_of_mem _ hq))
    refine ⟨st1, by simp [deleteLoop, deleteArr, h1], ?_⟩
    intro p hp
    exact hfr p (fun hm => hp (List.mem_cons_of_mem _ hm))
  | some q0 :: rest, st, hc, hl => by
    obtain ⟨bs, hb⟩ := hl q0 (List.mem_cons_self _ _)
    have hnot : some q0 ∉ rest := by
      intro hm
      have h1 := hc q0
      have h2 : 0 < rest.count (some q0) := List.count_pos_iff.mpr hm
      simp [List.count_cons] at h1
      omega
    have hc1 : ∀ q : Nat, rest.count (some q) ≤ 1 := by
      intro q
      have := hc q
      rw [List.count_cons] at this
      omega
    have hl1 : ∀ q : Nat, some q ∈ rest →
        ∃ bs, (st.heap.release q0).read q = some (.chars bs) := by
      intro q hq
      have hne : q0 ≠ q := fun he => hnot (he ▸ hq)
      rw [Heap.read_release_other hne]
      exact hl q (List.mem_cons_of_mem _ hq)
    obtain ⟨st1, h1, hfr⟩ := deleteLoop_ok rest
      { heap := st.heap.release q0, args := st.args, trace := .deleteArr (some q0) :: st.trace }
      hc1 hl1
    refine ⟨st1, by simp [deleteLoop, deleteArr, State.log, hb, h1], ?_⟩
    intro p hp
    have hne : q0 ≠ p := fun he => hp (he ▸ List.mem_cons_self _ _)
    rw [hfr p (fun hm => hp (List.mem_cons_of_mem _ hm))]
    exact Heap.read_release_other hne

theorem reserve_ok {argc : Int} (hmin : -1 ≤ argc) (hmax : argc ≤ INT_MAX) (st : State) :
    reserve ((toSizeT argc + 1) % 2 ^ 64) st
      = .ok ((), st.log (.reserve ((toSizeT argc + 1) % 2 ^ 64))) := by
  have hle : (toSizeT argc + 1) % 2 ^ 64 ≤ vectorMaxSize := by
    unfold toSizeT vectorMaxSize SIZE_MAX
    unfold INT_MAX at hmax
    norm_num at hmax ⊢
    omega
  unfold reserve
  exact if_neg (Nat.not_lt.mpr hle)

theorem reserve_throws (argc : Int) (hmin : INT_MIN ≤ argc) (hmax : argc ≤ -2) (st : State) :
    reserve ((toSizeT argc + 1) % 2 ^ 64) st
      = .error (.lengthError, st.log (.reserve ((toSizeT argc + 1) % 2 ^ 64))) := by
  have hgt : (toSizeT argc + 1) % 2 ^ 64 > vectorMaxSize := by
    unfold toSizeT vectorMaxSize SIZE_MAX
    unfold INT_MIN at hmin
    norm_num at hmin ⊢
    omega
  unfold reserve
  exact if_pos hgt

/-! ## Part I. Assembling `fm_transmitter_run` -/

theorem runEngine_after_loop (main : EngineMain) {argc : Int} {argv : Nat} {st0 st1 st2 : State}
    (hres : reserve ((toSizeT argc + 1) % 2 ^ 64) st0 = .ok ((), st1))
    (hloop : copyLoop argc argv (argc.toNat + 1) 0 st1 = .ok st2) :
    ∃ pre, (finalState (runEngine main argc argv st0)).trace
        = pre ++ .callMain argc (callBuf st2) (callHeap st2) :: .pushBack none :: st2.trace ∧
      (∀ e ∈ pre, ∃ s, e = .deleteArr s) ∧
      ∀ rc st, runEngine main argc argv st0 = .ok (rc, st) →
        rc = (main argc (callBuf st2) (callHeap st2)).rc := by
  unfold runEngine
  simp only [hres, hloop, pushBack, Heap.alloc]
  cases hb : (main argc st2.heap.cells.length
      ⟨st2.heap.cells ++ [some (.ptrs (st2.args ++ [none]))]⟩).heap.read st2.heap.cells.length with
  | none => exact ⟨[], by simp [finalState, callBuf, callHeap], by simp, by simp⟩
  | some blk =>
    cases blk with
    | chars bs => exact ⟨[], by simp [finalState, callBuf, callHeap], by simp, by simp⟩
    | ptrs elems =>
      simp only []
      obtain ⟨pre, hpre, hev⟩ := deleteLoop_trace elems
        { heap := (main argc st2.heap.cells.length
            ⟨st2.heap.cells ++ [some (.ptrs (st2.args ++ [none]))]⟩).heap
          args := elems
          trace := .callMain argc st2.heap.cells.length
              ⟨st2.heap.cells ++ [some (.ptrs (st2.args ++ [none]))]⟩
            :: .pushBack none :: st2.trace }
      cases hd : deleteLoop elems _ with
      | error e =>
        rw [hd] at hpre
        refine ⟨pre, ?_, hev, by simp⟩
        simpa [finalState, endState, callBuf, callHeap] using hpre
      | ok st5 =>
        rw [hd] at hpre
        refine ⟨pre, ?_, hev, ?_⟩
        · simpa [finalState, endState, callBuf, callHeap] using hpre
        · intro rc st hrun
          simp only [Except.ok.injEq, Prod.mk.injEq] at hrun
          exact hrun.1.symm

theorem runEngine_ok {main : EngineMain} {argc : Int} {argv : Nat} {h : Heap}
    {arr : List CPtr} {st1 st2 : State} (hconf : Confined main)
    (hres : reserve ((toSizeT argc + 1) % 2 ^ 64) (entry h) = .ok ((), st1))
    (hloop : copyLoop argc argv (argc.toNat + 1) 0 st1 = .ok st2)
    (inv : LoopInv h arr argc.toNat st2) :
    ∃ st, runEngine main argc argv (entry h)
        = .ok ((main argc (callBuf st2) (callHeap st2)).rc, st) ∧
      ∀ p : Nat, p < h.cells.length → st.heap.read p = h.read p := by
  obtain ⟨e, he⟩ := inv.ext
  have hlen : h.cells.length ≤ st2.heap.cells.length := by rw [he]; simp
  have hbuf : (callHeap st2).read (callBuf st2) = some (.ptrs (st2.args ++ [none])) :=
    Heap.read_append_new _ _
  have hmem : ∀ q : Nat, some q ∈ st2.args ++ [none] → some q ∈ st2.args := by
    intro q hq
    simpa using hq
  obtain ⟨elems, hel, hcount⟩ := hconf.array argc _ _ _ hbuf
  have hsub : ∀ q : Nat, some q ∈ elems → some q ∈ st2.args := by
    intro q hq
    have h1 : 0 < elems.count (some q) := List.count_pos_iff.mpr hq
    have h2 := hcount q
    exact hmem q (List.count_pos_iff.mp (by omega))
  have hnod : ∀ q : Nat, elems.count (some q) ≤ 1 := by
    intro q
    have h2 := hcount q
    have h3 := inv.nodup q
    have h4 : (st2.args ++ [none]).count (some q) = st2.args.count (some q) := by
      simp [List.count_append]
    omega
  have hlive : ∀ q : Nat, some q ∈ elems →
      ∃ bs, (main argc (callBuf st2) (callHeap st2)).heap.read q = some (.chars bs) := by
    intro q hq
    obtain ⟨_, bs, hbs⟩ := inv.fresh q (hsub q hq)
    have hbs1 : (callHeap st2).read q = some (.chars bs) :=
      Heap.read_of_ext (h := st2.heap) rfl hbs
    exact hconf.strings argc _ _ _ q bs hbuf (by simp [hsub q hq]) hbs1
  obtain ⟨st5, hdel, hfr⟩ := deleteLoop_ok elems
    { heap := (main argc (callBuf st2) (callHeap st2)).heap
      args := elems
      trace := .callMain argc (callBuf st2) (callHeap st2) :: .pushBack none :: st2.trace }
    hnod hlive
  refine ⟨{ st5 with heap := st5.heap.release (callBuf st2) }, ?_, ?_⟩
  · unfold runEngine
    simp only [hres, hloop, pushBack, Heap.alloc]
    unfold callBuf callHeap at hel hdel
    simp only [hel, hdel]
    rfl
  · intro p hp
    have hpb : callBuf st2 ≠ p := by unfold callBuf; omega
    have hpa : some p ∉ st2.args := by
      intro hm
      have := (inv.fresh p hm).1
      omega
    have hpe : some p ∉ elems := fun hm => hpa (hsub p hm)
    show (st5.heap.release (callBuf st2)).read p = h.read p
    rw [Heap.read_release_other hpb, hfr p hpe]
    show (main argc (callBuf st2) (callHeap st2)).heap.read p = h.read p
    rw [hconf.frame argc _ _ _ p hbuf (by simp [callHeap]; omega) hpb.symm
      (fun hm => hpa (hmem p hm))]
    rw [Heap.read_ext_eq st2.heap (callHeap st2) rfl (by omega)]
    exact Heap.read_ext_eq _ _ he hp

/-! ## Part I. The sample inputs are well-formed -/

theorem sampleArgv_ok : ArgvOk sampleHeap 0 3 sampleArgv where
  live := rfl
  holds := by simp [sampleArgv]
  strings := by
    intro i p hi hp
    have hi3 : i < 3 := by omega
    interval_cases i
    · simp [sampleArgv] at hp
      subst hp
      exact ⟨[104, 105, 0, 7], 2, rfl, by decide⟩
    · simp [sampleArgv] at hp
    · simp [sampleArgv] at hp
      subst hp
      exact ⟨[0], 0, rfl, by decide⟩

theorem reversingMain_confined : Confined reversingMain where
  frame := by
    intro argc buf h args p hb _ hne _
    simp only [reversingMain, hb]
    exact Heap.read_store_other _ hne.symm
  array := by
    intro argc buf h args hb
    refine ⟨args.reverse, ?_, by intro q; simp⟩
    simp only [reversingMain, hb]
    exact Heap.read_store_same _ (Heap.read_lt hb)
  strings := by
    intro argc buf h args q bs hb _ hq
    refine ⟨bs, ?_⟩
    simp only [reversingMain, hb]
    have hne : buf ≠ q := by
      intro he
      rw [he, hq] at hb
      cases hb
    rw [Heap.read_store_other _ hne]
    exact hq

/-! ## Part I. The contract of `fm_transmitter_run` -/

theorem run_reaches_call (main : EngineMain) {argc : Int} {argv : Nat} {h : Heap}
    {arr : List CPtr} (hmin : -1 ≤ argc) (hmax : argc ≤ INT_MAX) (ok : ArgvOk h argv argc arr) :
    ∃ st2, copyLoop argc argv (argc.toNat + 1) 0
          ((entry h).log (.reserve ((toSizeT argc + 1) % 2 ^ 64))) = .ok st2 ∧
      LoopInv h arr argc.toNat st2 ∧
      (∃ pre, st2.trace = pre ++ [.reserve ((toSizeT argc + 1) % 2 ^ 64)] ∧
        ∀ e ∈ pre, LoopEvent argc e) ∧
      ∃ pre, (finalState (fm_transmitter_run (some main) argc argv h)).trace
          = pre ++ .callMain argc (callBuf st2) (callHeap st2) :: .pushBack none :: st2.trace ∧
        ∀ e ∈ pre, ∃ s, e = .deleteArr s := by
  obtain ⟨st2, hloop, inv⟩ := copyLoop_inv ok (argc.toNat + 1) 0
    ((entry h).log (.reserve ((toSizeT argc + 1) % 2 ^ 64)))
    (LoopInv.start h arr _) (Nat.zero_le _) (by omega)
  have hloop0 : copyLoop argc argv (argc.toNat + 1) 0
      ((entry h).log (.reserve ((toSizeT argc + 1) % 2 ^ 64))) = .ok st2 := by
    simpa using hloop
  obtain ⟨pre2, hpre2, hev2⟩ := copyLoop_trace argc argv (argc.toNat + 1) 0
    ((entry h).log (.reserve ((toSizeT argc + 1) % 2 ^ 64))) (le_refl _)
  rw [hloop0] at hpre2
  obtain ⟨pre, hpre, hev, _⟩ := runEngine_after_loop main
    (reserve_ok hmin hmax (entry h)) hloop0
  exact ⟨st2, hloop0, inv, ⟨pre2, by simpa [endState, entry, State.log] using hpre2, hev2⟩,
    pre, hpre, hev⟩

/-- C1. With the engine compiled in, for every `argc ≥ 0` and every `argv` holding `argc`
entries, `fm_transmitter_run` calls the engine's `main` exactly once, with the same `argc`
and an array of exactly `argc + 1` entries: entry `i < argc` is null when `argv[i]` is null and
otherwise points at a block holding the bytes of `argv[i]` up to and including its terminator,
in the original order, and entry `argc` is null. -/
theorem fm_transmitter_run_forwards_copies (main : EngineMain) (argc : Int) (argv : Nat)
    (h : Heap) (arr : List CPtr) (h0 : 0 ≤ argc) (hmax : argc ≤ INT_MAX)
    (ok : ArgvOk h argv argc arr) :
    ∃ buf hc args,
      .callMain argc buf hc ∈ (finalState (fm_transmitter_run (some main) argc argv h)).trace ∧
      (∀ a b c,
        .callMain a b c ∈ (finalState (fm_transmitter_run (some main) argc argv h)).trace →
        a = argc ∧ b = buf ∧ c = hc) ∧
      hc.read buf = some (.ptrs args) ∧
      args.length = argc.toNat + 1 ∧
      (∀ i : Nat, (i : Int) < argc →
        ∃ a b, arr[i]? = some a ∧ args[i]? = some b ∧ Copied h hc a b) ∧
      args[argc.toNat]? = some none := by
  obtain ⟨st2, _, inv, ⟨pre2, hpre2, hev2⟩, pre, hpre, hev⟩ :=
    run_reaches_call main (by omega) hmax ok
  refine ⟨callBuf st2, callHeap st2, st2.args ++ [none], ?_, ?_, Heap.read_append_new _ _,
    by simp [inv.len], ?_, ?_⟩
  · rw [hpre]
    simp
  · intro a b c hm
    rw [hpre, hpre2] at hm
    simp only [List.mem_append, List.mem_cons, List.mem_singleton] at hm
    rcases hm with hm | hm | hm | hm | hm | hm
    · obtain ⟨s, hs⟩ := hev _ hm
      cases hs
    · cases hm
      exact ⟨rfl, rfl, rfl⟩
    · cases hm
    · exact absurd (hev2 _ hm) (by simp [LoopEvent])
    · cases hm
    · cases hm
  · intro i hi
    have hia : i < arr.length := by have := ok.holds; omega
    obtain ⟨b, hb, hcp⟩ := inv.copied i arr[i] (by omega) (List.getElem?_eq_getElem hia)
    refine ⟨arr[i], b, List.getElem?_eq_getElem hia, ?_,
      Copied.mono st2.heap (callHeap st2) rfl hcp⟩
    rw [List.getElem?_append_left (by rw [inv.len]; omega)]
    exact hb
  · simp [← inv.len]

theorem fm_transmitter_run_forwards_copies_witness :
    ∃ buf hc args,
      .callMain 3 buf hc
        ∈ (finalState (fm_transmitter_run (some reversingMain) 3 0 sampleHeap)).trace ∧
      (∀ a b c,
        .callMain a b c
          ∈ (finalState (fm_transmitter_run (some reversingMain) 3 0 sampleHeap)).trace →
        a = 3 ∧ b = buf ∧ c = hc) ∧
      hc.read buf = some (.ptrs args) ∧
      args.length = (3 : Int).toNat + 1 ∧
      (∀ i : Nat, (i : Int) < 3 →
        ∃ a b, sampleArgv[i]? = some a ∧ args[i]? = some b ∧ Copied sampleHeap hc a b) ∧
      args[(3 : Int).toNat]? = some none :=
  fm_transmitter_run_forwards_copies reversingMain 3 0 sampleHeap sampleArgv (by decide)
    (by decide) sampleArgv_ok

/-- C2. With the engine compiled in, whenever `fm_transmitter_run` returns, the value is the
one the engine's `main` returned for the forwarded arguments (so it is 0 exactly when the
engine's code is 0, and a non-zero code arrives unchanged); and for a well-formed `argv` and
a confined engine it does return. -/
theorem fm_transmitter_run_returns_engine_code (main : EngineMain) (argc : Int) (argv : Nat)
    (h : Heap) :
    (∀ rc st, fm_transmitter_run (some main) argc argv h = .ok (rc, st) →
      ∃ buf hc, .callMain argc buf hc ∈ st.trace ∧ rc = (main argc buf hc).rc ∧
        (rc = 0 ↔ (main argc buf hc).rc = 0)) ∧
    (∀ arr, Confined main → ArgvOk h argv argc arr → -1 ≤ argc → argc ≤ INT_MAX →
      ∃ buf hc st, .callMain argc buf hc ∈ st.trace ∧
        fm_transmitter_run (some main) argc argv h = .ok ((main argc buf hc).rc, st)) := by
  constructor
  · intro rc st hrun
    have hrun1 : runEngine main argc argv (entry h) = .ok (rc, st) := hrun
    cases hres : reserve ((toSizeT argc + 1) % 2 ^ 64) (entry h) with
    | error e =>
      simp only [runEngine, hres] at hrun1
      cases hrun1
    | ok v =>
      obtain ⟨u, st1⟩ := v
      cases hloop : copyLoop argc argv (argc.toNat + 1) 0 st1 with
      | error e =>
        simp only [runEngine, hres, hloop] at hrun1
        cases hrun1
      | ok st2 =>
        obtain ⟨pre, hpre, _, hrc⟩ := runEngine_after_loop main hres hloop
        have hrc1 := hrc rc st hrun1
        refine ⟨callBuf st2, callHeap st2, ?_, hrc1, by rw [hrc1]⟩
        rw [hrun1] at hpre
        simp only [finalState] at hpre
        rw [hpre]
        simp
  · intro arr hconf ok hmin hmax
    obtain ⟨st2, hloop, inv, _, pre, hpre, _⟩ := run_reaches_call main hmin hmax ok
    obtain ⟨st, hst, _⟩ := runEngine_ok hconf (reserve_ok hmin hmax (entry h)) hloop inv
    have hst1 : fm_transmitter_run (some main) argc argv h
        = .ok ((main argc (callBuf st2) (callHeap st2)).rc, st) := hst
    refine ⟨callBuf st2, callHeap st2, st, ?_, hst1⟩
    rw [hst1] at hpre
    simp only [finalState] at hpre
    rw [hpre]
    simp

theorem fm_transmitter_run_returns_engine_code_witness :
    ∃ buf hc st, .callMain 3 buf hc ∈ st.trace ∧
      fm_transmitter_run (some reversingMain) 3 0 sampleHeap
        = .ok ((reversingMain 3 buf hc).rc, st) :=
  (fm_transmitter_run_returns_engine_code reversingMain 3 0 sampleHeap).2 sampleArgv
    reversingMain_confined sampleArgv_ok (by decide) (by decide)

theorem Confined.framed {main : EngineMain} (hconf : Confined main) : Framed main where
  frame := hconf.frame
  entries := by
    intro argc buf h args elems q hb he hq
    obtain ⟨elems1, he1, hcount⟩ := hconf.array argc buf h args hb
    rw [he] at he1
    cases he1
    have h1 : 0 < elems.count (some q) := List.count_pos_iff.mpr hq
    have h2 := hcount q
    exact List.count_pos_iff.mp (by omega)

theorem deleteLoop_frame :
    ∀ (l : List CPtr) (st : State) (p : Nat), some p ∉ l →
      (endState (deleteLoop l st)).heap.read p = st.heap.read p
  | [], _, _, _ => rfl
  | none :: rest, st, p, hp => by
    have ih := deleteLoop_frame rest (st.log (.deleteArr none)) p
      (fun hm => hp (List.mem_cons_of_mem _ hm))
    simpa [deleteLoop, deleteArr] using ih
  | some q :: rest, st, p, hp => by
    have hne : q ≠ p := fun he => hp (he ▸ List.mem_cons_self _ _)
    cases hq : st.heap.read q with
    | none => simp [deleteLoop, deleteArr, State.log, hq, endState]
    | some blk =>
      cases blk with
      | ptrs ps => simp [deleteLoop, deleteArr, State.log, hq, endState]
      | chars bs =>
        have ih := deleteLoop_frame rest
          { heap := st.heap.release q, args := st.args, trace := .deleteArr (some q) :: st.trace }
          p (fun hm => hp (List.mem_cons_of_mem _ hm))
        simp only [deleteLoop, deleteArr, State.log, hq]
        rw [ih]
        exact Heap.read_release_other hne

theorem runEngine_frame {main : EngineMain} {argc : Int} {argv : Nat} {h : Heap}
    {arr : List CPtr} {st1 st2 : State} (hfr : Framed main)
    (hres : reserve ((toSizeT argc + 1) % 2 ^ 64) (entry h) = .ok ((), st1))
    (hloop : copyLoop argc argv (argc.toNat + 1) 0 st1 = .ok st2)
    (inv : LoopInv h arr argc.toNat st2) :
    ∀ p : Nat, p < h.cells.length →
      (finalState (runEngine main argc argv (entry h))).heap.read p = h.read p := by
  intro p hp
  obtain ⟨e, he⟩ := inv.ext
  have hlen : h.cells.length ≤ st2.heap.cells.length := by rw [he]; simp
  have hbuf : (callHeap st2).read (callBuf st2) = some (.ptrs (st2.args ++ [none])) :=
    Heap.read_append_new _ _
  have hpb : callBuf st2 ≠ p := by unfold callBuf; omega
  have hpa : some p ∉ st2.args ++ [none] := by
    intro hm
    have hm1 : some p ∈ st2.args := by simpa using hm
    have := (inv.fresh p hm1).1
    omega
  have hmain : (main argc (callBuf st2) (callHeap st2)).heap.read p = h.read p := by
    rw [hfr.frame argc _ _ _ p hbuf (by simp [callHeap]; omega) hpb.symm hpa]
    rw [Heap.read_ext_eq st2.heap (callHeap st2) rfl (by omega)]
    exact Heap.read_ext_eq _ _ he hp
  unfold runEngine
  simp only [hres, hloop, pushBack, Heap.alloc]
  cases hb : (main argc st2.heap.cells.length
      ⟨st2.heap.cells ++ [some (.ptrs (st2.args ++ [none]))]⟩).heap.read st2.heap.cells.length with
  | none => exact hmain
  | some blk =>
    cases blk with
    | chars bs => exact hmain
    | ptrs elems =>
      have hpe : some p ∉ elems := fun hm => hpa (hfr.entries argc _ _ _ elems p hbuf hb hm)
      have hdel := deleteLoop_frame elems
        { heap := (main argc st2.heap.cells.length
            ⟨st2.heap.cells ++ [some (.ptrs (st2.args ++ [none]))]⟩).heap
          args := elems
          trace := .callMain argc st2.heap.cells.length
              ⟨st2.heap.cells ++ [some (.ptrs (st2.args ++ [none]))]⟩
            :: .pushBack none :: st2.trace } p hpe
      simp only []
      cases hd : deleteLoop elems _ with
      | error f =>
        rw [hd] at hdel
        simp only [endState] at hdel
        simp only [finalState]
        rw [hdel]
        exact hmain
      | ok st5 =>
        rw [hd] at hdel
        simp only [endState] at hdel
        simp only [finalState]
        have hpb1 : st2.heap.cells.length ≠ p := hpb
        rw [Heap.read_release_other hpb1, hdel]
        exact hmain

/-- C8. For every `argc ≥ 0`, every well-formed `argv` and every engine `main` that stays
inside what it is handed (rewriting or reordering the argument array and strings at will),
the caller's memory is the same when `fm_transmitter_run` ends as before the call: the `argv`
array, every string an entry of it points at, and indeed every block that existed before the
call; and when the engine also leaves the array fit for the clean-up loop, the run returns. -/
theorem fm_transmitter_run_preserves_caller_memory (main : EngineMain) (argc : Int)
    (argv : Nat) (h : Heap) (arr : List CPtr) (hfr : Framed main) (h0 : 0 ≤ argc)
    (hmax : argc ≤ INT_MAX) (ok : ArgvOk h argv argc arr) :
    (finalState (fm_transmitter_run (some main) argc argv h)).heap.read argv
      = some (.ptrs arr) ∧
    (∀ (i : Nat) (p : Nat), (i : Int) < argc → arr[i]? = some (some p) →
      (finalState (fm_transmitter_run (some main) argc argv h)).heap.read p = h.read p ∧
        ∃ bs, h.read p = some (.chars bs)) ∧
    (∀ p : Nat, p < h.cells.length →
      (finalState (fm_transmitter_run (some main) argc argv h)).heap.read p = h.read p) ∧
    (Confined main → ∃ rc st, fm_transmitter_run (some main) argc argv h = .ok (rc, st)) := by
  obtain ⟨st2, hloop, inv, _, _⟩ := run_reaches_call main (by omega) hmax ok
  have hframe : ∀ p : Nat, p < h.cells.length →
      (finalState (fm_transmitter_run (some main) argc argv h)).heap.read p = h.read p :=
    runEngine_frame hfr (reserve_ok (by omega) hmax (entry h)) hloop inv
  refine ⟨?_, ?_, hframe, ?_⟩
  · rw [hframe argv (Heap.read_lt ok.live)]
    exact ok.live
  · intro i p hi hp
    obtain ⟨bs, n, hbs, _⟩ := ok.strings i p hi hp
    exact ⟨hframe p (Heap.read_lt hbs), bs, hbs⟩
  · intro hconf
    obtain ⟨st, hst, _⟩ := runEngine_ok hconf (reserve_ok (by omega) hmax (entry h)) hloop inv
    exact ⟨_, st, hst⟩

theorem fm_transmitter_run_preserves_caller_memory_witness :
    (finalState (fm_transmitter_run (some reversingMain) 3 0 sampleHeap)).heap.read 0
      = some (.ptrs sampleArgv) ∧
    (∀ (i : Nat) (p : Nat), (i : Int) < 3 → sampleArgv[i]? = some (some p) →
      (finalState (fm_transmitter_run (some reversingMain) 3 0 sampleHeap)).heap.read p
          = sampleHeap.read p ∧
        ∃ bs, sampleHeap.read p = some (.chars bs)) ∧
    (∀ p : Nat, p < sampleHeap.cells.length →
      (finalState (fm_transmitter_run (some reversingMain) 3 0 sampleHeap)).heap.read p
        = sampleHeap.read p) ∧
    (Confined reversingMain →
      ∃ rc st, fm_transmitter_run (some reversingMain) 3 0 sampleHeap = .ok (rc, st)) :=
  fm_transmitter_run_preserves_caller_memory reversingMain 3 0 sampleHeap sampleArgv
    reversingMain_confined.framed (by decide) (by decide) sampleArgv_ok

/-- C7. `fm_transmitter_is_available` reports the build configuration (1 exactly when the
engine is compiled in, 0 exactly when it is not), and whenever it reports 0,
`fm_transmitter_run` returns -1 for every `argc` and `argv`, with the heap untouched and an
empty trace: nothing of `argv` is read and no engine code runs. -/
theorem shim_agrees_on_availability (b : Build) :
    (fm_transmitter_is_available b = 1 ↔ b.isSome = true) ∧
    (fm_transmitter_is_available b = 0 ↔ b.isSome = false) ∧
    fm_transmitter_is_available b = (FM_TRANSMITTER_AVAILABLE b : Int) ∧
    (fm_transmitter_is_available b = 0 → ∀ (argc : Int) (argv : Nat) (h : Heap),
      fm_transmitter_run b argc argv h = .ok (-1, ⟨h, [], []⟩)) := by
  cases b with
  | none =>
    simp [fm_transmitter_is_available, FM_TRANSMITTER_AVAILABLE, fm_transmitter_run, entry]
  | some main =>
    simp [fm_transmitter_is_available, FM_TRANSMITTER_AVAILABLE]

theorem shim_agrees_on_availability_witness :
    fm_transmitter_is_available none = 0 ∧
      fm_transmitter_run none 3 0 sampleHeap = .ok (-1, ⟨sampleHeap, [], []⟩) :=
  ⟨rfl, (shim_agrees_on_availability none).2.2.2 rfl 3 0 sampleHeap⟩

/-- Every negative `argc` other than -1 makes `reserve` throw before anything else happens. -/
theorem fm_transmitter_run_below_minus_one_throws (main : EngineMain) (argc : Int) (argv : Nat)
    (h : Heap) (hmin : INT_MIN ≤ argc) (hmax : argc ≤ -2) :
    fm_transmitter_run (some main) argc argv h
      = .error (.lengthError, ⟨h, [], [.reserve ((toSizeT argc + 1) % 2 ^ 64)]⟩) := by
  have hr := reserve_throws argc hmin hmax (entry h)
  simp only [fm_transmitter_run, runEngine, hr]
  rfl

/-- C9, at the failing input. For `argc = -2` (and every `argv`, heap and engine) the
request `static_cast<size_t>(argc) + 1` is `SIZE_MAX`, `reserve` throws `std::length_error`,
and the run ends there: no array is built and the engine is never called. -/
theorem fm_transmitter_run_negative_argc_throws (main : EngineMain) (argv : Nat) (h : Heap) :
    fm_transmitter_run (some main) (-2) argv h
      = .error (.lengthError, ⟨h, [], [.reserve SIZE_MAX]⟩) := by
  have hr := reserve_throws (-2) (by decide) (by decide) (entry h)
  have hn : (toSizeT (-2) + 1) % 2 ^ 64 = SIZE_MAX := by decide
  rw [hn] at hr
  simp only [fm_transmitter_run, runEngine, hn, hr]
  rfl

/-! ## Part I. Reads of the copy loop -/

theorem fm_transmitter_run_trace (main : EngineMain) (argc : Int) (argv : Nat) (h : Heap) :
    ∀ e ∈ (finalState (fm_transmitter_run (some main) argc argv h)).trace,
      LoopEvent argc e ∨ (∃ n, e = .reserve n) ∨ (∃ s, e = .deleteArr s) ∨
        ∃ buf hc, e = .callMain argc buf hc := by
  intro e he
  have hrun : fm_transmitter_run (some main) argc argv h = runEngine main argc argv (entry h) :=
    rfl
  rw [hrun] at he
  by_cases hgt : (toSizeT argc + 1) % 2 ^ 64 > vectorMaxSize
  · have hres : reserve ((toSizeT argc + 1) % 2 ^ 64) (entry h)
        = .error (.lengthError, (entry h).log (.reserve ((toSizeT argc + 1) % 2 ^ 64))) := by
      unfold reserve
      exact if_pos hgt
    simp only [runEngine, hres] at he
    simp only [finalState, State.log, entry, List.mem_singleton] at he
    exact Or.inr (Or.inl ⟨_, he⟩)
  · have hres : reserve ((toSizeT argc + 1) % 2 ^ 64) (entry h)
        = .ok ((), (entry h).log (.reserve ((toSizeT argc + 1) % 2 ^ 64))) := by
      unfold reserve
      exact if_neg hgt
    obtain ⟨pre2, hpre2, hev2⟩ := copyLoop_trace argc argv (argc.toNat + 1) 0
      ((entry h).log (.reserve ((toSizeT argc + 1) % 2 ^ 64))) (le_refl _)
    cases hloop : copyLoop argc argv (argc.toNat + 1) 0
        ((entry h).log (.reserve ((toSizeT argc + 1) % 2 ^ 64))) with
    | error f =>
      rw [hloop] at hpre2
      simp only [runEngine, hres, hloop, finalState] at he
      simp only [endState] at hpre2
      rw [hpre2] at he
      rcases List.mem_append.mp he with h1 | h1
      · exact Or.inl (hev2 e h1)
      · simp only [State.log, entry, List.mem_singleton] at h1
        exact Or.inr (Or.inl ⟨_, h1⟩)
    | ok st2 =>
      rw [hloop] at hpre2
      simp only [endState] at hpre2
      obtain ⟨pre, hpre, hev, _⟩ := runEngine_after_loop main hres hloop
      rw [hpre, hpre2] at he
      simp only [List.mem_append, List.mem_cons, State.log, entry, List.mem_singleton,
        List.not_mem_nil, or_false] at he
      rcases he with h1 | h1 | h1 | h1 | h1
      · exact Or.inr (Or.inr (Or.inl (hev e h1)))
      · exact Or.inr (Or.inr (Or.inr ⟨_, _, h1⟩))
      · subst h1
        exact Or.inl trivial
      · exact Or.inl (hev2 e h1)
      · exact Or.inr (Or.inl ⟨_, h1⟩)

/-- Every index of `argv` the shim reads lies in `[0, argc)`, and `strlen` and `memcpy` are
never handed a null pointer; this holds on every run, faulting or not. -/
theorem fm_transmitter_run_reads_in_bounds (main : EngineMain) (argc : Int) (argv : Nat)
    (h : Heap) :
    (∀ i, .readArgv i ∈ (finalState (fm_transmitter_run (some main) argc argv h)).trace →
      0 ≤ i ∧ i < argc) ∧
    (∀ s, .strlen s ∈ (finalState (fm_transmitter_run (some main) argc argv h)).trace →
      s ≠ none) ∧
    (∀ d s n, .memcpy d s n ∈ (finalState (fm_transmitter_run (some main) argc argv h)).trace →
      d ≠ none ∧ s ≠ none) := by
  refine ⟨fun i hi => ?_, fun s hs => ?_, fun d s n hm => ?_⟩
  · rcases fm_transmitter_run_trace main argc argv h _ hi with h1 | ⟨_, h1⟩ | ⟨_, h1⟩ | ⟨_, _, h1⟩
    · exact h1
    all_goals cases h1
  · rcases fm_transmitter_run_trace main argc argv h _ hs with h1 | ⟨_, h1⟩ | ⟨_, h1⟩ | ⟨_, _, h1⟩
    · exact h1
    all_goals cases h1
  · rcases fm_transmitter_run_trace main argc argv h _ hm with h1 | ⟨_, h1⟩ | ⟨_, h1⟩ | ⟨_, _, h1⟩
    · exact h1
    all_goals cases h1

/-- For `argc = 0` and `argc = -1` nothing of `argv` is read and the engine is handed the
single null terminator. -/
theorem fm_transmitter_run_empty_argv (main : EngineMain) (argc : Int) (argv : Nat) (h : Heap)
    (hmin : -1 ≤ argc) (hmax : argc ≤ 0) :
    (∀ i, .readArgv i ∉ (finalState (fm_transmitter_run (some main) argc argv h)).trace) ∧
    ∃ buf hc, .callMain argc buf hc
        ∈ (finalState (fm_transmitter_run (some main) argc argv h)).trace ∧
      hc.read buf = some (.ptrs [none]) := by
  constructor
  · intro i hi
    have := (fm_transmitter_run_reads_in_bounds main argc argv h).1 i hi
    omega
  · have hloop : copyLoop argc argv (argc.toNat + 1) 0
        ((entry h).log (.reserve ((toSizeT argc + 1) % 2 ^ 64)))
        = .ok ((entry h).log (.reserve ((toSizeT argc + 1) % 2 ^ 64))) := by
      unfold copyLoop
      exact if_neg (by omega)
    obtain ⟨pre, hpre, _, _⟩ := runEngine_after_loop main
      (reserve_ok hmin (by unfold INT_MAX; omega) (entry h)) hloop
    refine ⟨callBuf ((entry h).log (.reserve ((toSizeT argc + 1) % 2 ^ 64))),
      callHeap ((entry h).log (.reserve ((toSizeT argc + 1) % 2 ^ 64))), ?_,
      Heap.read_append_new _ _⟩
    show _ ∈ (finalState (runEngine main argc argv (entry h))).trace
    rw [hpre]
    simp

theorem fm_transmitter_run_empty_argv_witness :
    (∀ i, .readArgv i
        ∉ (finalState (fm_transmitter_run (some reversingMain) (-1) 0 sampleHeap)).trace) ∧
    ∃ buf hc, .callMain (-1) buf hc
        ∈ (finalState (fm_transmitter_run (some reversingMain) (-1) 0 sampleHeap)).trace ∧
      hc.read buf = some (.ptrs [none]) :=
  fm_transmitter_run_empty_argv reversingMain (-1) 0 sampleHeap (by decide) (by decide)

/-! ## Part II. The divisor modulator: bounds and monotonicity -/

theorem instantaneous_frequency_mono (cfg : CarrierConfig) {s1 s2 : ℚ} (h : s1 ≤ s2) :
    instantaneous_frequency_hz cfg s1 ≤ instantaneous_frequency_hz cfg s2 := by
  unfold instantaneous_frequency_hz
  have hv : (0 : ℚ) ≤ cfg.peak_deviation_hz := Nat.cast_nonneg _
  nlinarith

theorem instantaneous_frequency_pos {pol : ModulatorPolicy} {cfg : CarrierConfig}
    (hv : ValidConfig pol cfg) {s : ℚ} (hs : -1 ≤ s) :
    0 < instantaneous_frequency_hz cfg s := by
  have h1 := instantaneous_frequency_mono cfg hs
  have h2 : (cfg.peak_deviation_hz : ℚ) < cfg.center_frequency_hz := by
    exact_mod_cast hv.deviation_below_center
  unfold instantaneous_frequency_hz at h1 ⊢
  linarith

theorem scaled_reference_nonneg (pol : ModulatorPolicy) (cfg : CarrierConfig) :
    0 ≤ scaled_reference pol cfg := by
  unfold scaled_reference
  positivity

theorem round_nearest_antitone {pol : ModulatorPolicy} {cfg : CarrierConfig}
    (hv : ValidConfig pol cfg) {s1 s2 : ℚ} (h1 : -1 ≤ s1) (h : s1 ≤ s2) :
    round_nearest (scaled_reference pol cfg / instantaneous_frequency_hz cfg s2)
      ≤ round_nearest (scaled_reference pol cfg / instantaneous_frequency_hz cfg s1) := by
  unfold round_nearest
  apply Nat.floor_mono
  have := div_le_div_of_nonneg_left (scaled_reference_nonneg pol cfg)
    (instantaneous_frequency_pos hv h1) (instantaneous_frequency_mono cfg h)
  linarith

theorem divisor_representable {pol : ModulatorPolicy} {cfg : CarrierConfig}
    (hv : ValidConfig pol cfg) {s : ℚ} (h1 : -1 ≤ s) (h2 : s ≤ 1) :
    representable pol
      (round_nearest (scaled_reference pol cfg / instantaneous_frequency_hz cfg s)) := by
  have hlo := round_nearest_antitone hv h1 h2
  have hhi := round_nearest_antitone hv (le_refl (-1 : ℚ)) h1
  exact ⟨le_trans hv.low_end.1 hlo, lt_of_le_of_lt hhi hv.high_end.2⟩

theorem two_le_of_representable {pol : ModulatorPolicy} {cfg : CarrierConfig}
    (hv : ValidConfig pol cfg) {d : Nat} (hd : representable pol d) : 2 ≤ d := by
  have h1 : 2 ^ 1 ≤ 2 ^ pol.fractional_bits :=
    Nat.pow_le_pow_right (by decide) (le_trans (by decide) hv.precision)
  have := hd.1
  omega

theorem step_convex {r : ℚ} (hr : 0 ≤ r) {d : Nat} (hd : 2 ≤ d) :
    r / d - r / ((d + 1 : Nat) : ℚ) ≤ r / ((d - 1 : Nat) : ℚ) - r / d := by
  have h2 : (2 : ℚ) ≤ d := by exact_mod_cast hd
  have hc1 : ((d - 1 : Nat) : ℚ) = (d : ℚ) - 1 := by
    rw [Nat.cast_sub (by omega)]
    simp
  have hc2 : ((d + 1 : Nat) : ℚ) = (d : ℚ) + 1 := by push_cast; ring
  rw [hc1, hc2]
  have e1 : r / d - r / ((d : ℚ) + 1) = r / ((d : ℚ) * (d + 1)) := by
    field_simp
    ring
  have e2 : r / ((d : ℚ) - 1) - r / d = r / (((d : ℚ) - 1) * d) := by
    have : (d : ℚ) - 1 ≠ 0 := by linarith
    field_simp
    ring
  rw [e1, e2]
  apply div_le_div_of_nonneg_left hr
  · nlinarith
  · nlinarith

theorem sampleConfig_valid : ValidConfig samplePolicy sampleConfig where
  deviation_below_center := by decide
  reference_pos := by decide
  precision := by decide
  low_end := by
    have e : round_nearest (scaled_reference samplePolicy sampleConfig
        / instantaneous_frequency_hz sampleConfig 1) = 20465 := by
      unfold round_nearest
      rw [Nat.floor_eq_iff (by
        norm_num [scaled_reference, instantaneous_frequency_hz, sampleConfig, samplePolicy])]
      norm_num [scaled_reference, instantaneous_frequency_hz, sampleConfig, samplePolicy]
    rw [e]
    exact ⟨by decide, by decide⟩
  high_end := by
    have e : round_nearest (scaled_reference samplePolicy sampleConfig
        / instantaneous_frequency_hz sampleConfig (-1)) = 20495 := by
      unfold round_nearest
      rw [Nat.floor_eq_iff (by
        norm_num [scaled_reference, instantaneous_frequency_hz, sampleConfig, samplePolicy])]
      norm_num [scaled_reference, instantaneous_frequency_hz, sampleConfig, samplePolicy]
    rw [e]
    exact ⟨by decide, by decide⟩

theorem divisor_neighbours_in_band {pol : ModulatorPolicy} {cfg : CarrierConfig} {s : ℚ}
    (hv : ValidConfig pol cfg) (h1 : -1 ≤ s) (h2 : s ≤ 1) {d : Nat}
    (hd : round_nearest (scaled_reference pol cfg / instantaneous_frequency_hz cfg s) = d) :
    (cfg.center_frequency_hz : ℚ) - cfg.peak_deviation_hz ≤ implied_frequency pol cfg (d - 1) ∧
    implied_frequency pol cfg (d + 1) ≤ (cfg.center_frequency_hz : ℚ) + cfg.peak_deviation_hz := by
  have hrep := divisor_representable hv h1 h2
  rw [hd] at hrep
  have hd2 := two_le_of_representable hv hrep
  have hR := scaled_reference_nonneg pol cfg
  have hf := instantaneous_frequency_pos hv h1
  have hlo : (cfg.center_frequency_hz : ℚ) - cfg.peak_deviation_hz
      ≤ instantaneous_frequency_hz cfg s := by
    have := instantaneous_frequency_mono cfg h1
    unfold instantaneous_frequency_hz at this ⊢
    linarith
  have hhi : instantaneous_frequency_hz cfg s
      ≤ (cfg.center_frequency_hz : ℚ) + cfg.peak_deviation_hz := by
    have := instantaneous_frequency_mono cfg h2
    unfold instantaneous_frequency_hz at this ⊢
    linarith
  have hx0 : (0 : ℚ) ≤ scaled_reference pol cfg / instantaneous_frequency_hz cfg s + 1 / 2 := by
    have := div_nonneg hR hf.le
    linarith
  have hle : (d : ℚ) ≤ scaled_reference pol cfg / instantaneous_frequency_hz cfg s + 1 / 2 := by
    rw [← hd]
    exact Nat.floor_le hx0
  have hgt : scaled_reference pol cfg / instantaneous_frequency_hz cfg s + 1 / 2
      < (d : ℚ) + 1 := by
    rw [← hd]
    exact Nat.lt_floor_add_one _
  have hdq : (2 : ℚ) ≤ d := by exact_mod_cast hd2
  have hxf : scaled_reference pol cfg / instantaneous_frequency_hz cfg s
      * instantaneous_frequency_hz cfg s = scaled_reference pol cfg :=
    div_mul_cancel₀ _ hf.ne'
  constructor
  · -- one step towards the smaller divisor is inside the band at its lower edge
    have hc1 : ((d - 1 : Nat) : ℚ) = (d : ℚ) - 1 := by
      rw [Nat.cast_sub (by omega)]
      simp
    have hpos : (0 : ℚ) < (d : ℚ) - 1 := by linarith
    unfold implied_frequency
    rw [hc1, le_div_iff₀ hpos]
    have hA : ((d : ℚ) - 1) * instantaneous_frequency_hz cfg s ≤ scaled_reference pol cfg := by
      rw [← hxf]
      exact mul_le_mul_of_nonneg_right (by linarith) hf.le
    nlinarith
  · -- one step towards the larger divisor is inside the band at its upper edge
    have hc2 : ((d + 1 : Nat) : ℚ) = (d : ℚ) + 1 := by push_cast; ring
    unfold implied_frequency
    rw [hc2, div_le_iff₀ (by linarith)]
    have hA : scaled_reference pol cfg
        ≤ ((d : ℚ) + 1) * instantaneous_frequency_hz cfg s := by
      rw [← hxf]
      exact mul_le_mul_of_nonneg_right (by linarith) hf.le
    nlinarith

/-- C3. For every sample `s` in `[-1, 1]` and every valid `CarrierConfig`,
`sample_to_divisor` yields a representable divisor `d` whose implied frequency lies within
`[center - deviation, center + deviation]` widened by one quantization step; more exactly, the
frequencies implied by the neighbouring divisors `d - 1` and `d + 1` are already on the inner
side of the lower and of the upper band edge. -/
theorem sample_to_divisor_within_band (pol : ModulatorPolicy) (cfg : CarrierConfig) (s : ℚ)
    (hv : ValidConfig pol cfg) (h1 : -1 ≤ s) (h2 : s ≤ 1) :
    ∃ d, sample_to_divisor pol s cfg = some d ∧ representable pol d ∧
      (cfg.center_frequency_hz : ℚ) - cfg.peak_deviation_hz - quantization_step pol cfg d
        ≤ implied_frequency pol cfg d ∧
      implied_frequency pol cfg d
        ≤ (cfg.center_frequency_hz : ℚ) + cfg.peak_deviation_hz + quantization_step pol cfg d ∧
      (cfg.center_frequency_hz : ℚ) - cfg.peak_deviation_hz
        ≤ implied_frequency pol cfg (d - 1) ∧
      implied_frequency pol cfg (d + 1)
        ≤ (cfg.center_frequency_hz : ℚ) + cfg.peak_deviation_hz := by
  have hrep := divisor_representable hv h1 h2
  have hd2 := two_le_of_representable hv hrep
  obtain ⟨klo, khi⟩ := divisor_neighbours_in_band hv h1 h2 rfl
  have conv := step_convex (scaled_reference_nonneg pol cfg) hd2
  refine ⟨round_nearest (scaled_reference pol cfg / instantaneous_frequency_hz cfg s),
    by simp [sample_to_divisor, h1, h2], hrep, ?_, ?_, klo, khi⟩
  · unfold quantization_step
    linarith
  · unfold quantization_step
    unfold implied_frequency at khi conv ⊢
    linarith

theorem sample_to_divisor_within_band_witness :
    ∃ d, sample_to_divisor samplePolicy (1 / 2) sampleConfig = some d ∧
      representable samplePolicy d ∧
      (sampleConfig.center_frequency_hz : ℚ) - sampleConfig.peak_deviation_hz
          - quantization_step samplePolicy sampleConfig d
        ≤ implied_frequency samplePolicy sampleConfig d ∧
      implied_frequency samplePolicy sampleConfig d
        ≤ (sampleConfig.center_frequency_hz : ℚ) + sampleConfig.peak_deviation_hz
          + quantization_step samplePolicy sampleConfig d ∧
      (sampleConfig.center_frequency_hz : ℚ) - sampleConfig.peak_deviation_hz
        ≤ implied_frequency samplePolicy sampleConfig (d - 1) ∧
      implied_frequency samplePolicy sampleConfig (d + 1)
        ≤ (sampleConfig.center_frequency_hz : ℚ) + sampleConfig.peak_deviation_hz :=
  sample_to_divisor_within_band samplePolicy sampleConfig (1 / 2) sampleConfig_valid
    (by norm_num) (by norm_num)

/-- C4. For every valid `CarrierConfig`, `sample_to_divisor` is monotonic over `[-1, 1]`:
for samples `s1 ≤ s2` the divisor for `s1` is not below the divisor for `s2`, and the implied
frequency for `s1` is not above that for `s2`. -/
theorem sample_to_divisor_monotone (pol : ModulatorPolicy) (cfg : CarrierConfig) (s1 s2 : ℚ)
    (hv : ValidConfig pol cfg) (h1 : -1 ≤ s1) (h : s1 ≤ s2) (h2 : s2 ≤ 1) :
    ∃ d1 d2, sample_to_divisor pol s1 cfg = some d1 ∧ sample_to_divisor pol s2 cfg = some d2 ∧
      d2 ≤ d1 ∧ implied_frequency pol cfg d1 ≤ implied_frequency pol cfg d2 := by
  have hmono := round_nearest_antitone hv h1 h
  have hrep2 := divisor_representable hv (le_trans h1 h) h2
  have hd2 := two_le_of_representable hv hrep2
  refine ⟨_, _, by simp [sample_to_divisor, h1, le_trans h h2],
    by simp [sample_to_divisor, le_trans h1 h, h2], hmono, ?_⟩
  unfold implied_frequency
  apply div_le_div_of_nonneg_left (scaled_reference_nonneg pol cfg)
  · exact_mod_cast (by omega : 0 < round_nearest
      (scaled_reference pol cfg / instantaneous_frequency_hz cfg s2))
  · exact_mod_cast hmono

theorem sample_to_divisor_monotone_witness :
    ∃ d1 d2, sample_to_divisor samplePolicy (-1 / 2) sampleConfig = some d1 ∧
      sample_to_divisor samplePolicy (1 / 2) sampleConfig = some d2 ∧
      d2 ≤ d1 ∧
      implied_frequency samplePolicy sampleConfig d1
        ≤ implied_frequency samplePolicy sampleConfig d2 :=
  sample_to_divisor_monotone samplePolicy sampleConfig (-1 / 2) (1 / 2) sampleConfig_valid
    (by norm_num) (by norm_num) (by norm_num)

/-! ## Part II. The descriptor ring: full means full -/

theorem allocate_ring_wellFormed (target capacity : Nat) :
    (allocate_ring target capacity).WellFormed where
  slots := by simp [allocate_ring]
  not_behind := Nat.le_refl _
  not_past := by simp [allocate_ring]

theorem write_next_ok {r : Ring} (d : Nat)
    (h : r.write_cursor < r.hardware_read_cursor + r.capacity) :
    write_next r d = (true,
      { r with
        descriptors := r.descriptors.set (r.write_cursor % r.capacity)
          ⟨r.target_register_address, d, (r.write_cursor % r.capacity + 1) % r.capacity⟩
        write_cursor := r.write_cursor + 1 }) := by
  unfold write_next
  exact if_pos h

theorem write_next_full {r : Ring} (d : Nat)
    (h : r.hardware_read_cursor + r.capacity ≤ r.write_cursor) :
    write_next r d = (false, r) := by
  unfold write_next
  exact if_neg (Nat.not_lt.mpr h)

theorem mod_shift_ne {a m c : Nat} (h0 : 0 < m) (hc : m < c) : (a + m) % c ≠ a % c := by
  intro he
  have h1 : (a + m) % c = (a + 0) % c := by simpa using he
  have h2 : m % c = 0 % c := Nat.ModEq.add_left_cancel' a h1
  rw [Nat.mod_eq_of_lt hc] at h2
  simp at h2
  omega

theorem write_all_ok :
    ∀ (ds : List Nat) (r : Ring), r.WellFormed →
      r.write_cursor + ds.length ≤ r.hardware_read_cursor + r.capacity →
      (write_all r ds).1 = true ∧
      (write_all r ds).2.write_cursor = r.write_cursor + ds.length ∧
      (write_all r ds).2.hardware_read_cursor = r.hardware_read_cursor ∧
      (write_all r ds).2.capacity = r.capacity ∧
      (write_all r ds).2.WellFormed
  | [], r, wf, _ => ⟨rfl, rfl, rfl, rfl, wf⟩
  | d :: ds, r, wf, hle => by
    have hlt : r.write_cursor < r.hardware_read_cursor + r.capacity := by
      simp only [List.length_cons] at hle
      omega
    have wf1 : Ring.WellFormed
        { r with
          descriptors := r.descriptors.set (r.write_cursor % r.capacity)
            ⟨r.target_register_address, d, (r.write_cursor % r.capacity + 1) % r.capacity⟩
          write_cursor := r.write_cursor + 1 } :=
      ⟨by simp [wf.slots], by have := wf.not_behind; simp only; omega, by simp only; omega⟩
    obtain ⟨h1, h2, h3, h4, h5⟩ := write_all_ok ds _ wf1 (by
      simp only [List.length_cons] at hle
      simp only
      omega)
    simp only [write_all, write_next_ok d hlt, h1, Bool.and_self, List.length_cons]
    have h2a : (write_all _ ds).2.write_cursor = r.write_cursor + 1 + ds.length := h2
    refine ⟨trivial, ?_, h3, h4, h5⟩
    rw [h2a]
    omega

theorem write_all_true :
    ∀ (ds : List Nat) (r : Ring), (write_all r ds).1 = true →
      ds = [] ∨ r.write_cursor + ds.length ≤ r.hardware_read_cursor + r.capacity
  | [], _, _ => Or.inl rfl
  | d :: ds, r, h => by
    right
    by_cases hlt : r.write_cursor < r.hardware_read_cursor + r.capacity
    · simp only [write_all, write_next_ok d hlt, Bool.true_and] at h
      rcases write_all_true ds _ h with h1 | h1
      · subst h1
        simp only [List.length_cons, List.length_nil]
        omega
      · simp only [List.length_cons] at h1 ⊢
        omega
    · simp [write_all, write_next_full d (Nat.not_lt.mp hlt)] at h

theorem write_all_frame :
    ∀ (ds : List Nat) (r : Ring) (k : Nat),
      (∀ j, j < ds.length → (r.write_cursor + j) % r.capacity ≠ k) →
      (write_all r ds).2.descriptors[k]? = r.descriptors[k]?
  | [], _, _, _ => rfl
  | d :: ds, r, k, hk => by
    by_cases hlt : r.write_cursor < r.hardware_read_cursor + r.capacity
    · simp only [write_all, write_next_ok d hlt]
      have hfr := write_all_frame ds
        { r with
          descriptors := r.descriptors.set (r.write_cursor % r.capacity)
            ⟨r.target_register_address, d, (r.write_cursor % r.capacity + 1) % r.capacity⟩
          write_cursor := r.write_cursor + 1 }
        k (by
          intro j hj
          have := hk (j + 1) (by simp only [List.length_cons]; omega)
          show (r.write_cursor + 1 + j) % r.capacity ≠ k
          rwa [Nat.add_assoc, Nat.add_comm 1 j])
      rw [hfr]
      have h0 := hk 0 (by simp)
      simp only [Nat.add_zero] at h0
      simp [List.getElem?_set, h0]
    · simp only [write_all, write_next_full d (Nat.not_lt.mp hlt)]
      exact write_all_frame ds r k (fun j hj => hk j (by simp only [List.length_cons]; omega))

theorem write_all_contents :
    ∀ (ds : List Nat) (r : Ring), r.WellFormed →
      r.write_cursor + ds.length ≤ r.hardware_read_cursor + r.capacity →
      ∀ (i : Nat) (hi : i < ds.length),
        ((write_all r ds).2.descriptors[(r.write_cursor + i) % r.capacity]?).map
          (fun x => x.value_to_write) = some ds[i]
  | [], _, _, _, i, hi => by simp at hi
  | d :: ds, r, wf, hle, i, hi => by
    simp only [List.length_cons] at hle hi
    have hlt : r.write_cursor < r.hardware_read_cursor + r.capacity := by omega
    have hcap : ds.length + 1 ≤ r.capacity := by have := wf.not_behind; omega
    have wf1 : Ring.WellFormed
        { r with
          descriptors := r.descriptors.set (r.write_cursor % r.capacity)
            ⟨r.target_register_address, d, (r.write_cursor % r.capacity + 1) % r.capacity⟩
          write_cursor := r.write_cursor + 1 } :=
      ⟨by simp [wf.slots], by have := wf.not_behind; simp only; omega, by simp only; omega⟩
    simp only [write_all, write_next_ok d hlt]
    cases i with
    | zero =>
      have hfr := write_all_frame ds
        { r with
          descriptors := r.descriptors.set (r.write_cursor % r.capacity)
            ⟨r.target_register_address, d, (r.write_cursor % r.capacity + 1) % r.capacity⟩
          write_cursor := r.write_cursor + 1 }
        (r.write_cursor % r.capacity) (by
          intro j hj
          show (r.write_cursor + 1 + j) % r.capacity ≠ r.write_cursor % r.capacity
          rw [Nat.add_assoc]
          exact mod_shift_ne (by omega) (by omega))
      simp only [Nat.add_zero]
      rw [hfr]
      have hslot : r.write_cursor % r.capacity < r.descriptors.length := by
        rw [wf.slots]
        exact Nat.mod_lt _ (by omega)
      simp [List.getElem?_set, hslot]
    | succ i =>
      have ih := write_all_contents ds _ wf1 (by simp only; omega) i (by omega)
      simp only at ih
      have e : r.write_cursor + (i + 1) = r.write_cursor + 1 + i := by omega
      rw [e]
      simpa using ih

/-- C5. For every well-formed ring of capacity `C`, with no `observe_hardware_cursor` between
the calls: once `C` consecutive `write_next` calls have succeeded the next one returns false
and leaves the ring (descriptors and write cursor) as it was; and on a ring with nothing
queued, such as a freshly allocated one, `C` consecutive calls do succeed, each written
divisor sits in its own slot, and the `(C+1)`-th call is the one that fails. -/
theorem write_next_fails_when_full (r : Ring) (ds : List Nat) (d : Nat) (wf : r.WellFormed)
    (hlen : ds.length = r.capacity) :
    ((write_all r ds).1 = true →
      write_next (write_all r ds).2 d = (false, (write_all r ds).2)) ∧
    (r.write_cursor = r.hardware_read_cursor →
      (write_all r ds).1 = true ∧
      write_next (write_all r ds).2 d = (false, (write_all r ds).2) ∧
      ∀ (i : Nat) (hi : i < ds.length),
        ((write_all r ds).2.descriptors[(r.write_cursor + i) % r.capacity]?).map
          (fun x => x.value_to_write) = some ds[i]) := by
  have full : r.write_cursor + ds.length ≤ r.hardware_read_cursor + r.capacity →
      write_next (write_all r ds).2 d = (false, (write_all r ds).2) := by
    intro hle
    obtain ⟨_, h2, h3, h4, _⟩ := write_all_ok ds r wf hle
    apply write_next_full
    rw [h2, h3, h4]
    have := wf.not_behind
    omega
  constructor
  · intro hok
    rcases write_all_true ds r hok with h1 | h1
    · subst h1
      apply write_next_full
      have h0 : r.capacity = 0 := by simpa using hlen.symm
      have := wf.not_behind
      simp only [write_all]
      omega
    · exact full h1
  · intro hempty
    have hle : r.write_cursor + ds.length ≤ r.hardware_read_cursor + r.capacity := by omega
    exact ⟨(write_all_ok ds r wf hle).1, full hle, write_all_contents ds r wf hle⟩

theorem write_next_fails_when_full_witness :
    ((write_all (allocate_ring 28784 3) [20480, 20465, 20495]).1 = true →
      write_next (write_all (allocate_ring 28784 3) [20480, 20465, 20495]).2 7
        = (false, (write_all (allocate_ring 28784 3) [20480, 20465, 20495]).2)) ∧
    ((allocate_ring 28784 3).write_cursor = (allocate_ring 28784 3).hardware_read_cursor →
      (write_all (allocate_ring 28784 3) [20480, 20465, 20495]).1 = true ∧
      write_next (write_all (allocate_ring 28784 3) [20480, 20465, 20495]).2 7
        = (false, (write_all (allocate_ring 28784 3) [20480, 20465, 20495]).2) ∧
      ∀ (i : Nat) (hi : i < [20480, 20465, 20495].length),
        ((write_all (allocate_ring 28784 3) [20480, 20465, 20495]).2.descriptors[
            ((allocate_ring 28784 3).write_cursor + i) % (allocate_ring 28784 3).capacity]?).map
          (fun x => x.value_to_write) = some [20480, 20465, 20495][i]) :=
  write_next_fails_when_full (allocate_ring 28784 3) [20480, 20465, 20495] 7
    (allocate_ring_wellFormed 28784 3) rfl

/-! ## Part II. The transmission controller: stop reaches `Idle` -/

theorem restore_idle_final_values (s : Session) (hl : s.layout.WellFormed) :
    final_value (restore_idle s).registers s.layout.clock_control_register
      = some s.layout.clock_idle_value ∧
    final_value (restore_idle s).registers s.layout.dma_control_register
      = some s.layout.dma_idle_value := by
  unfold RegisterLayout.WellFormed at hl
  simp [restore_idle, write_register, final_value, List.find?, hl]

theorem idle_ignores_polls :
    ∀ (polls : List Nat) (s : Session), s.state = .Idle →
      controller_run s (polls.map .hardware_poll) = s
  | [], _, _ => rfl
  | p :: rest, s, hs => by
    have h1 : controller_step s (.hardware_poll p) = s := by
      simp [controller_step, hs]
    simp only [controller_run, List.map_cons, List.foldl_cons, h1]
    exact idle_ignores_polls rest s hs

theorem draining_reaches_idle :
    ∀ (polls : List Nat) (s : Session), s.state = .Draining → s.layout.WellFormed →
      ((s.shutdown_policy = .abandon_immediately ∧ polls ≠ []) ∨
        ∃ p ∈ polls, s.ring.write_cursor ≤ p) →
      (controller_run s (polls.map .hardware_poll)).state = .Idle ∧
      final_value (controller_run s (polls.map .hardware_poll)).registers
        s.layout.clock_control_register = some s.layout.clock_idle_value ∧
      final_value (controller_run s (polls.map .hardware_poll)).registers
        s.layout.dma_control_register = some s.layout.dma_idle_value
  | [], s, _, _, hd => by
    rcases hd with ⟨_, h⟩ | ⟨p, hp, _⟩
    · exact absurd rfl h
    · simp at hp
  | q :: rest, s, hs, hl, hd => by
    simp only [controller_run, List.map_cons, List.foldl_cons]
    by_cases hc : s.shutdown_policy = .abandon_immediately ∨ s.ring.write_cursor ≤ q
    · have h1 : controller_step s (.hardware_poll q)
          = { restore_idle { s with ring := (observe_hardware_cursor s.ring q).2 }
              with state := .Idle } := by
        simp only [controller_step, hs]
        exact if_pos hc
      have hrun := idle_ignores_polls rest (controller_step s (.hardware_poll q))
        (by rw [h1])
      simp only [controller_run] at hrun
      rw [hrun, h1]
      exact ⟨rfl, restore_idle_final_values
        { s with ring := (observe_hardware_cursor s.ring q).2 } hl⟩
    · have h1 : controller_step s (.hardware_poll q)
          = { s with ring := (observe_hardware_cursor s.ring q).2 } := by
        simp only [controller_step, hs]
        exact if_neg hc
      rw [h1]
      have hd1 : (s.shutdown_policy = .abandon_immediately ∧ rest ≠ []) ∨
          ∃ p ∈ rest, s.ring.write_cursor ≤ p := by
        rcases hd with ⟨ha, _⟩ | ⟨p, hp, hle⟩
        · exact absurd (Or.inl ha) hc
        · rcases List.mem_cons.mp hp with he | hr
          · subst he
            exact absurd (Or.inr hle) hc
          · exact Or.inr ⟨p, hr, hle⟩
      exact draining_reaches_idle rest
        { s with ring := (observe_hardware_cursor s.ring q).2 } hs hl hd1

/-- C6. For every session in state `Streaming`, a stop request takes the controller to
`Draining`, and from there to `Idle` as soon as draining completes (at the next poll under the
abandon policy, or at the poll that sees the hardware cursor reach the write cursor); the
final values written to the clock-generator and DMA control registers are then their idle
values. -/
theorem stop_request_reaches_idle (s : Session) (polls : List Nat)
    (hs : s.state = .Streaming) (hl : s.layout.WellFormed)
    (hd : (s.shutdown_policy = .abandon_immediately ∧ polls ≠ []) ∨
      ∃ p ∈ polls, s.ring.write_cursor ≤ p) :
    (controller_step s .stop_request).state = .Draining ∧
    (controller_run s (.stop_request :: polls.map .hardware_poll)).state = .Idle ∧
    final_value (controller_run s (.stop_request :: polls.map .hardware_poll)).registers
      s.layout.clock_control_register = some s.layout.clock_idle_value ∧
    final_value (controller_run s (.stop_request :: polls.map .hardware_poll)).registers
      s.layout.dma_control_register = some s.layout.dma_idle_value := by
  have h1 : controller_step s .stop_request = { s with state := .Draining } := by
    simp [controller_step, hs]
  refine ⟨by rw [h1], ?_⟩
  have := draining_reaches_idle polls { s with state := .Draining } rfl hl hd
  simpa only [controller_run, List.foldl_cons, h1] using this

theorem stop_request_reaches_idle_witness :
    (controller_step sampleSession .stop_request).state = .Draining ∧
    (controller_run sampleSession
      (.stop_request :: [1, 2, 3].map .hardware_poll)).state = .Idle ∧
    final_value (controller_run sampleSession
        (.stop_request :: [1, 2, 3].map .hardware_poll)).registers
      sampleSession.layout.clock_control_register
        = some sampleSession.layout.clock_idle_value ∧
    final_value (controller_run sampleSession
        (.stop_request :: [1, 2, 3].map .hardware_poll)).registers
      sampleSession.layout.dma_control_register
        = some sampleSession.layout.dma_idle_value :=
  stop_request_reaches_idle sampleSession [1, 2, 3] rfl
    (show (0 : Nat) ≠ 1 by decide) (Or.inr ⟨3, by decide, by decide⟩)

end RadioAT
